import Mathlib

/-!
go-builder-mcp: the cross-platform build dispatcher.

A shallow embedding of `main.go` (`CrossPlatformBuild`, `compileTarget`, `fileExists`,
`isGoInstalled`) and proofs of the properties its specification states.

* Go strings are `String`; Go `int` is `Int`; a Go `error` is `Option String`
  (`none` is `nil`, `some m` is an error whose `Error()` text is `m`).
* Calls that leave the process (`os.Stat`, `exec.LookPath`, `os.MkdirAll`, running the
  `go build` subprocess) are fields of `Env`; every call made is appended to a log.
  A subprocess is taken to end: what it returns may differ from one task to the next.
* `filepath.Join` and `filepath.Clean` are those of a Unix host (separator `/`), which is
  what the paths of the specification (`bin/app_linux_amd64`) are written for.
* The goroutines of the dispatch are a transition system: `DState` holds the program
  counter of every goroutine and the contents of the two channels and of the wait group,
  `step` lets one goroutine take its next step, and a scheduler (`choices`) picks, at every
  point, which of the goroutines that can move does so. Properties of all interleavings
  are stated over every list of events (`exec`) and over every scheduler (`dispatch`).
-/

namespace GoBuilder

/-! ## Data model (main.go, lines 29-61 and 278-283) -/

/-- One build target: `BuildTarget` of main.go. -/
structure BuildTarget where
  GOOS : String
  GOARCH : String
  Name : String
deriving DecidableEq

/-- The request: `BuildParam` of main.go. -/
structure BuildParam where
  SourceFile : String
  AppName : String
  OutputDir : String
  Targets : List BuildTarget
  Jobs : Int
deriving DecidableEq

/-- The summary: `BuildResult` of main.go. -/
structure BuildResult where
  Success : Bool
  BuiltTargets : List String
  FailedTargets : List String
  OutputDir : String
deriving DecidableEq

/-- The per-task outcome sent over the `results` channel. -/
structure buildTaskResult where
  target : BuildTarget
  path : String
  success : Bool
  error : Option String
deriving DecidableEq

/-! ## `path/filepath` of the Go standard library, Unix flavour (separator `/`) -/

/-- The function `os.IsPathSeparator` on Unix. -/
def isPathSeparator (c : Char) : Bool := c == '/'

/-- Whether the next byte to read exists and is a separator. -/
def startsWithSep : List Char → Bool
  | [] => false
  | c :: _ => isPathSeparator c

/-- The inner loop of the `..` case of `Clean`, on the reversed buffer: the head is the
byte at index `w` (just given up), the tail is the buffer `buf[0:w]`. -/
def backtrackRev (dotdot : Nat) : List Char → List Char
  | [] => []
  | c :: rest =>
    if rest.length > dotdot && !isPathSeparator c then backtrackRev dotdot rest else rest

/-- The step `out.w--; for out.w > dotdot && !IsPathSeparator(out.index(out.w)) { out.w-- }`. -/
def backtrack (dotdot : Nat) (out : List Char) : List Char :=
  (backtrackRev dotdot out.reverse).reverse

/-- The main loop of `filepath.Clean`: `p` is `path[r:]`, `out` the bytes written so far
(`out.w` is its length). Every iteration reads at least one byte, so `fuel` bounds the
number of iterations by the number of bytes left. -/
def cleanLoop (rooted : Bool) : Nat → List Char → List Char → Nat → List Char
  | 0, _, out, _ => out
  | _ + 1, [], out, _ => out
  | fuel + 1, c :: rest, out, dotdot =>
    if isPathSeparator c then
      -- empty path element
      cleanLoop rooted fuel rest out dotdot
    else if c = '.' ∧ (rest = [] ∨ startsWithSep rest = true) then
      -- . element
      cleanLoop rooted fuel rest out dotdot
    else if c = '.' ∧ rest.head? = some '.' ∧
        (rest.tail = [] ∨ startsWithSep rest.tail = true) then
      -- .. element: remove to last separator
      if out.length > dotdot then
        cleanLoop rooted fuel rest.tail (backtrack dotdot out) dotdot
      else if !rooted then
        let out1 := if out.length > 0 then out ++ ['/'] else out
        let out2 := out1 ++ ['.', '.']
        cleanLoop rooted fuel rest.tail out2 out2.length
      else
        cleanLoop rooted fuel rest.tail out dotdot
    else
      -- real path element: add slash if needed, copy element
      let out1 :=
        if (rooted && out.length != 1) || (!rooted && out.length != 0) then out ++ ['/']
        else out
      cleanLoop rooted fuel ((c :: rest).dropWhile (fun x => !isPathSeparator x))
        (out1 ++ (c :: rest).takeWhile (fun x => !isPathSeparator x)) dotdot

/-- The byte-level body of `filepath.Clean` for a non-empty path. -/
def cleanChars (p : List Char) : List Char :=
  let rooted := startsWithSep p
  let out0 : List Char := if rooted then ['/'] else []
  let n0 : Nat := if rooted then 1 else 0
  let out := cleanLoop rooted (p.length + 1) (p.drop n0) out0 n0
  if out.length = 0 then ['.'] else out

/-- The function `filepath.Clean` (Unix: no volume name, `FromSlash` is the identity). -/
def Clean (path : String) : String :=
  if path.data = [] then "." else String.mk (cleanChars path.data)

/-- The function `strings.Join(elems, "/")`, on byte lists. -/
def joinSep : List String → List Char
  | [] => []
  | [e] => e.data
  | e :: es => e.data ++ '/' :: joinSep es

/-- The function `filepath.Join` (Unix): the elements from the first non-empty one on,
joined by `/` and cleaned; the empty string when every element is empty. -/
def filepathJoin (elem : List String) : String :=
  match elem.dropWhile (fun e => e.data.isEmpty) with
  | [] => ""
  | es => Clean (String.mk (joinSep es))

/-! ## The naming step and the result-collection loop -/

/-- Lines 153-157: `suffix` and `outputName := fmt.Sprintf("%s_%s_%s%s", ...)`. -/
def outputName (appName : String) (t : BuildTarget) : String :=
  let suffix := if t.GOOS = "windows" then ".exe" else ""
  appName ++ "_" ++ t.GOOS ++ "_" ++ t.GOARCH ++ suffix

/-- Line 158: `outputPath := filepath.Join(param.OutputDir, outputName)`. -/
def outputPath (outputDir appName : String) (t : BuildTarget) : String :=
  filepathJoin [outputDir, outputName appName t]

/-- The verb `%v` applied to a value of type `error`. -/
def fmtError : Option String → String
  | none => "<nil>"
  | some m => m

/-- Line 180: the label of a successful outcome. -/
def builtLabel (result : buildTaskResult) : String :=
  result.target.Name ++ ": " ++ result.path

/-- Line 182: the label of a failed outcome. -/
def failedLabel (result : buildTaskResult) : String :=
  result.target.Name ++ ": " ++ fmtError result.error

/-- One iteration of `for result := range results` (lines 178-184) on the pair
`(builtTargets, failedTargets)`. -/
def collectStep (acc : List String × List String) (result : buildTaskResult) :
    List String × List String :=
  if result.success then (acc.1 ++ [builtLabel result], acc.2)
  else (acc.1, acc.2 ++ [failedLabel result])

/-- Lines 176-184: the whole collection loop over the outcomes received, in order. -/
def collect (outcomes : List buildTaskResult) : List String × List String :=
  outcomes.foldl collectStep ([], [])

/-- Lines 208 and 219-224: the summary built from the two lists. -/
def summarize (outputDir : String) (lists : List String × List String) : BuildResult :=
  { Success := lists.2.length == 0
    BuiltTargets := lists.1
    FailedTargets := lists.2
    OutputDir := outputDir }

/-! ## The collaborators outside the process -/

/-- What `os.Stat` reports: no error; an error `os.IsNotExist` accepts (`ENOENT`); the
error `ENOTDIR` of a path that runs through a file that is not a directory, which
`os.IsNotExist` does not accept; any other error (such as `EACCES`). -/
inductive StatResult
  | ok
  | notExist
  | notDir
  | otherError
deriving DecidableEq

/-- An `exec.Cmd`: program, arguments and environment. -/
structure Cmd where
  name : String
  args : List String
  env : List String
deriving DecidableEq

/-- The host the program runs on. `combinedOutput i cmd` is what running `cmd` gives when
it is the subprocess of task number `i`: the captured output and the error, so that two
runs of one command may end differently. -/
structure Env where
  stat : String → StatResult
  lookPath : String → Bool
  mkdirAll : String → Nat → Option String
  environ : List String
  combinedOutput : Nat → Cmd → String × Option String

/-- A call that leaves the process, as recorded in the log. -/
inductive Call
  | stat (path : String)
  | lookPath (file : String)
  | mkdirAll (path : String)
  | compileTarget (target : BuildTarget) (sourceFile outputPath : String)
deriving DecidableEq

/-- Lines 304-307: `fileExists`. -/
def fileExists (env : Env) (path : String) : Bool :=
  !(env.stat path == StatResult.notExist)

/-- Lines 309-312: `isGoInstalled`. -/
def isGoInstalled (env : Env) : Bool :=
  env.lookPath "go"

/-- Lines 285-302: `compileTarget`, run as the subprocess of task number `i`. The command
is built with `context.Background()`: no cancellation signal reaches it. -/
def compileTarget (env : Env) (i : Nat) (target : BuildTarget)
    (sourceFile outputPath : String) : Option String :=
  let cmd : Cmd :=
    { name := "go"
      args := ["build", "-o", outputPath, sourceFile]
      env := env.environ ++ ["GOOS=" ++ target.GOOS, "GOARCH=" ++ target.GOARCH,
        "CGO_ENABLED=0"] }
  match env.combinedOutput i cmd with
  | (output, some err) => some (err ++ "\nOutput: " ++ output)
  | (_, none) => none

/-! ## The dispatch (lines 142-184) as a transition system -/

/-- The variables the goroutines of the dispatch capture. `compile i` is the compile
invoker as called by task number `i`. -/
structure Config where
  sourceFile : String
  appName : String
  outputDir : String
  jobs : Nat
  targets : List BuildTarget
  compile : Nat → BuildTarget → String → String → Option String

/-- Where a task goroutine (lines 148-167) stands: before `semaphore <- struct{}{}`,
before `compileTarget`, before `results <- ...`, before the deferred `<-semaphore`,
before the deferred `wg.Done()`, or gone. -/
inductive WorkerPc
  | acquire
  | compile
  | send
  | release
  | wgDone
  | finished
deriving DecidableEq

/-- A task goroutine: its argument `t`, its program counter and its local `err`. -/
structure Worker where
  t : BuildTarget
  pc : WorkerPc
  err : Option String
deriving DecidableEq

/-- Where the calling goroutine stands: in the loop of lines 146-168 (and, once it is
over, the `go` statement of line 170), in the loop of lines 178-184, or past it. -/
inductive MainPc
  | spawning
  | collecting
  | returned
deriving DecidableEq

/-- Where the goroutine of lines 170-173 stands: not started, in `wg.Wait()`, before
`close(results)`, or gone. -/
inductive CloserPc
  | notStarted
  | waiting
  | closing
  | done
deriving DecidableEq

/-- The state of a dispatch. `received` and `calls` are logs: the values taken from
`results` and the invocations of `compileTarget`, in order. `panicked` is set by a send
on a closed channel, a second `close` and a negative wait-group counter. -/
structure DState where
  pending : List BuildTarget
  workers : List Worker
  semaphore : Nat
  results : List buildTaskResult
  closed : Bool
  wg : Nat
  main : MainPc
  closer : CloserPc
  builtTargets : List String
  failedTargets : List String
  received : List buildTaskResult
  calls : List Call
  panicked : Bool
deriving DecidableEq

/-- The goroutine that takes the next step. -/
inductive Event
  | main
  | closer
  | worker (i : Nat)
deriving DecidableEq

/-- The state on entry to line 142. -/
def DState.init (cfg : Config) : DState :=
  { pending := cfg.targets
    workers := []
    semaphore := 0
    results := []
    closed := false
    wg := 0
    main := MainPc.spawning
    closer := CloserPc.notStarted
    builtTargets := []
    failedTargets := []
    received := []
    calls := []
    panicked := false }

/-- The value a task sends on `results` (lines 161-166). -/
def taskResult (cfg : Config) (w : Worker) : buildTaskResult :=
  { target := w.t
    path := outputPath cfg.outputDir cfg.appName w.t
    success := w.err.isNone
    error := w.err }

/-- One step of the calling goroutine; `none` when it is blocked or has returned. -/
def stepMain (s : DState) : Option DState :=
  match s.main with
  | MainPc.spawning =>
    match s.pending with
    | t :: rest =>
      -- wg.Add(1); go func(t BuildTarget) ...
      some { s with
        pending := rest
        wg := s.wg + 1
        workers := s.workers ++ [{ t := t, pc := WorkerPc.acquire, err := none }] }
    | [] =>
      -- go func() { wg.Wait(); close(results) }()
      some { s with main := MainPc.collecting, closer := CloserPc.waiting }
  | MainPc.collecting =>
    match s.results with
    | result :: rest =>
      let acc := collectStep (s.builtTargets, s.failedTargets) result
      some { s with
        results := rest
        received := s.received ++ [result]
        builtTargets := acc.1
        failedTargets := acc.2 }
    | [] => if s.closed then some { s with main := MainPc.returned } else none
  | MainPc.returned => none

/-- One step of the closing goroutine; `none` when it is blocked, not started or gone. -/
def stepCloser (s : DState) : Option DState :=
  match s.closer with
  | CloserPc.notStarted => none
  | CloserPc.waiting => if s.wg = 0 then some { s with closer := CloserPc.closing } else none
  | CloserPc.closing =>
    if s.closed then some { s with panicked := true }
    else some { s with closed := true, closer := CloserPc.done }
  | CloserPc.done => none

/-- One step of task number `i`; `none` when it is blocked, not started or gone. -/
def stepWorker (cfg : Config) (s : DState) (i : Nat) : Option DState :=
  match s.workers[i]? with
  | none => none
  | some w =>
    match w.pc with
    | WorkerPc.acquire =>
      -- semaphore <- struct{}{} blocks while the channel holds `jobs` tokens
      if s.semaphore < cfg.jobs then
        some { s with
          semaphore := s.semaphore + 1
          workers := s.workers.set i { w with pc := WorkerPc.compile } }
      else none
    | WorkerPc.compile =>
      let path := outputPath cfg.outputDir cfg.appName w.t
      some { s with
        workers := s.workers.set i
          { w with pc := WorkerPc.send, err := cfg.compile i w.t cfg.sourceFile path }
        calls := s.calls ++ [Call.compileTarget w.t cfg.sourceFile path] }
    | WorkerPc.send =>
      -- results has capacity len(targets)
      if s.closed then some { s with panicked := true }
      else if s.results.length < cfg.targets.length then
        some { s with
          results := s.results ++ [taskResult cfg w]
          workers := s.workers.set i { w with pc := WorkerPc.release } }
      else none
    | WorkerPc.release =>
      -- <-semaphore blocks while the channel is empty
      if 0 < s.semaphore then
        some { s with
          semaphore := s.semaphore - 1
          workers := s.workers.set i { w with pc := WorkerPc.wgDone } }
      else none
    | WorkerPc.wgDone =>
      if s.wg = 0 then some { s with panicked := true }
      else
        some { s with
          wg := s.wg - 1
          workers := s.workers.set i { w with pc := WorkerPc.finished } }
    | WorkerPc.finished => none

/-- One step of the dispatch: the goroutine named by the event moves. After a panic the
process is gone and nothing moves. -/
def step (cfg : Config) (s : DState) (e : Event) : Option DState :=
  if s.panicked then none
  else
    match e with
    | Event.main => stepMain s
    | Event.closer => stepCloser s
    | Event.worker i => stepWorker cfg s i

/-- The events by which the dispatch can be run from a state, one after the other. -/
def exec (cfg : Config) : List Event → DState → Option DState
  | [], s => some s
  | e :: es, s =>
    match step cfg s e with
    | none => none
    | some s1 => exec cfg es s1

/-- The goroutines that can move in a state. -/
def enabled (cfg : Config) (s : DState) : List Event :=
  (Event.main :: Event.closer :: (List.range s.workers.length).map Event.worker).filter
    (fun e => (step cfg s e).isSome)

/-- The steps a task still has to take, a received value counting as one. -/
def WorkerPc.weight : WorkerPc → Nat
  | WorkerPc.acquire => 6
  | WorkerPc.compile => 5
  | WorkerPc.send => 4
  | WorkerPc.release => 2
  | WorkerPc.wgDone => 1
  | WorkerPc.finished => 0

/-- The steps the calling goroutine still has to take outside its two loops. -/
def MainPc.weight : MainPc → Nat
  | MainPc.spawning => 2
  | MainPc.collecting => 1
  | MainPc.returned => 0

/-- The steps the closing goroutine still has to take. -/
def CloserPc.weight : CloserPc → Nat
  | CloserPc.notStarted => 3
  | CloserPc.waiting => 2
  | CloserPc.closing => 1
  | CloserPc.done => 0

/-- An upper bound on the number of steps a dispatch can still take from a state. -/
def DState.measure (s : DState) : Nat :=
  (if s.panicked then 0 else 1) + 7 * s.pending.length
    + (s.workers.map (fun w => w.pc.weight)).sum + s.results.length
    + s.main.weight + s.closer.weight

/-- Running the dispatch for at most `fuel` steps: at every step the scheduler's next
choice picks one of the goroutines that can move (a missing choice is 0); the run stops
when no goroutine can move. -/
def run (cfg : Config) : Nat → List Nat → DState → DState
  | 0, _, s => s
  | fuel + 1, choices, s =>
    match enabled cfg s with
    | [] => s
    | e :: es =>
      match step cfg s ((e :: es).getD (choices.headD 0 % (es.length + 1)) e) with
      | none => s
      | some s1 => run cfg fuel choices.tail s1

/-- Lines 142-184 under a scheduler: the state in which the dispatch ends. -/
def dispatch (cfg : Config) (choices : List Nat) : DState :=
  run cfg (DState.init cfg).measure choices (DState.init cfg)

/-- Whether a task at this point holds an admission slot. -/
def WorkerPc.holdsSlot : WorkerPc → Bool
  | WorkerPc.compile => true
  | WorkerPc.send => true
  | WorkerPc.release => true
  | _ => false

/-- Whether `compileTarget` has returned in a task at this point. -/
def WorkerPc.hasCompiled : WorkerPc → Bool
  | WorkerPc.acquire => false
  | WorkerPc.compile => false
  | _ => true

/-- Whether a task at this point has sent its outcome. -/
def WorkerPc.hasSent : WorkerPc → Bool
  | WorkerPc.release => true
  | WorkerPc.wgDone => true
  | WorkerPc.finished => true
  | _ => false

/-- The number of tasks inside `compileTarget` or about to enter it. -/
def compiling (s : DState) : Nat :=
  s.workers.countP (fun w => w.pc == WorkerPc.compile)

/-- The number of tasks holding an admission slot. -/
def holders (s : DState) : Nat :=
  s.workers.countP (fun w => w.pc.holdsSlot)

/-- The number of tasks that have not yet called `wg.Done()`. -/
def unfinished (ws : List Worker) : Nat :=
  ws.countP (fun w => w.pc != WorkerPc.finished)

/-- The outcomes sent so far, in task order. -/
def sentResults (cfg : Config) (ws : List Worker) : List buildTaskResult :=
  (ws.filter (fun w => w.pc.hasSent)).map (taskResult cfg)

/-! ## `CrossPlatformBuild` (lines 83-225) -/

/-- The `context.Context` of the caller, reduced to its cancellation signal: the number
of dispatch steps after which the signal is raised, if it ever is. -/
structure Context where
  cancelledAfter : Option Nat
deriving DecidableEq

/-- What `CrossPlatformBuild` returns (the text of the `CallToolResult`, the summary and
the error), with the log of the calls it made. -/
structure Return where
  text : String
  result : BuildResult
  err : Option String
  calls : List Call
deriving DecidableEq

/-- Lines 89-100: the defaults written into `param`. -/
def applyDefaults (param : BuildParam) : BuildParam :=
  let param := if param.SourceFile = "" then { param with SourceFile := "./main.go" } else param
  let param := if param.AppName = "" then { param with AppName := "app" } else param
  let param := if param.OutputDir = "" then { param with OutputDir := "bin" } else param
  let param := if param.Jobs ≤ 0 then { param with Jobs := 4 } else param
  param

/-- Lines 130-139: the local `targets`. -/
def effectiveTargets (param : BuildParam) : List BuildTarget :=
  if param.Targets.length = 0 then
    [ { GOOS := "linux", GOARCH := "amd64", Name := "Linux x64" },
      { GOOS := "windows", GOARCH := "amd64", Name := "Windows x64" } ]
  else param.Targets

/-- The request the dispatch works from: `param` after lines 89-100, with the local
`targets` of lines 130-139 as its target list. -/
def effectiveRequest (param : BuildParam) : BuildParam :=
  { applyDefaults param with Targets := effectiveTargets (applyDefaults param) }

/-- The captured variables of the dispatch, from the request after defaulting. -/
def dispatchConfig (env : Env) (param : BuildParam) : Config :=
  { sourceFile := param.SourceFile
    appName := param.AppName
    outputDir := param.OutputDir
    jobs := param.Jobs.toNat
    targets := effectiveTargets param
    compile := compileTarget env }

/-- The summary of the three early returns (lines 108, 117, 126). -/
def preconditionFailure : BuildResult :=
  { Success := false, BuiltTargets := [], FailedTargets := [], OutputDir := "" }

/-- Lines 194-206: one of the two bulleted sections of the report. -/
def reportSection (title : String) (labels : List String) : String :=
  if labels.length > 0 then
    title ++ String.join (labels.map (fun target => "  • " ++ target ++ "\n"))
  else ""

/-- Lines 187-213: the text of the report. -/
def reportText (param : BuildParam) (builtTargets failedTargets : List String) : String :=
  "🚀 跨平台构建完成\n\n"
    ++ "📁 源文件: " ++ param.SourceFile ++ "\n"
    ++ "📦 应用名称: " ++ param.AppName ++ "\n"
    ++ "📂 输出目录: " ++ param.OutputDir ++ "\n"
    ++ "⚡ 并行任务数: " ++ toString param.Jobs ++ "\n\n"
    ++ reportSection "✅ 成功构建:\n" builtTargets
    ++ reportSection "\n❌ 构建失败:\n" failedTargets
    ++ (if failedTargets.length == 0 then
          "\n🎉 所有目标构建成功！共 " ++ toString builtTargets.length ++ " 个\n"
        else
          "\n⚠️ 部分构建失败。成功: " ++ toString builtTargets.length ++ "，失败: "
            ++ toString failedTargets.length ++ "\n")

/-- Lines 83-225: `CrossPlatformBuild` on a host `env`, with the goroutines scheduled by
`choices`. The request argument of the tool protocol is not used by the code and is left
out; `ctx` is not used by the code either. -/
def CrossPlatformBuild (env : Env) (choices : List Nat) (_ctx : Context)
    (param : BuildParam) : Return :=
  let param := applyDefaults param
  if !fileExists env param.SourceFile then
    { text := "❌ 源文件不存在: " ++ param.SourceFile
      result := preconditionFailure
      err := none
      calls := [Call.stat param.SourceFile] }
  else if !isGoInstalled env then
    { text := "❌ Go 未安装或不在 PATH 中"
      result := preconditionFailure
      err := none
      calls := [Call.stat param.SourceFile, Call.lookPath "go"] }
  else
    match env.mkdirAll param.OutputDir 0o755 with
    | some err =>
      { text := "❌ 创建输出目录失败: " ++ err
        result := preconditionFailure
        err := none
        calls := [Call.stat param.SourceFile, Call.lookPath "go",
          Call.mkdirAll param.OutputDir] }
    | none =>
      let s := dispatch (dispatchConfig env param) choices
      { text := reportText param s.builtTargets s.failedTargets
        result := summarize param.OutputDir (s.builtTargets, s.failedTargets)
        err := none
        calls := [Call.stat param.SourceFile, Call.lookPath "go",
          Call.mkdirAll param.OutputDir] ++ s.calls }

/-! ## Definitions used to state the properties -/

/-- The outcome task number `i`, for target `t`, sends: the value of lines 161-166 once
`compileTarget` has returned. -/
def expectedOutcome (cfg : Config) (i : Nat) (t : BuildTarget) : buildTaskResult :=
  taskResult cfg
    { t := t
      pc := WorkerPc.finished
      err := cfg.compile i t cfg.sourceFile (outputPath cfg.outputDir cfg.appName t) }

/-- The outcomes of all the tasks of a dispatch, in submission order. -/
def expectedOutcomes (cfg : Config) : List buildTaskResult :=
  cfg.targets.mapIdx (expectedOutcome cfg)

/-- Lines 208 and 219-224 on the lists a dispatch ends with: the summary of a completed
dispatch under a scheduler. -/
def dispatchSummary (cfg : Config) (choices : List Nat) : BuildResult :=
  summarize cfg.outputDir
    ((dispatch cfg choices).builtTargets, (dispatch cfg choices).failedTargets)

/-- The three checks of lines 103-127, all passed. -/
def preconditionsHold (env : Env) (param : BuildParam) : Bool :=
  fileExists env (applyDefaults param).SourceFile && isGoInstalled env
    && (env.mkdirAll (applyDefaults param).OutputDir 0o755).isNone

/-- The built-in target list of lines 133-136. -/
def defaultTargets : List BuildTarget :=
  [ { GOOS := "linux", GOARCH := "amd64", Name := "Linux x64" },
    { GOOS := "windows", GOARCH := "amd64", Name := "Windows x64" } ]

/-- The effective request as the specification words it: the given request with only the
target list and the concurrency limit defaulted. -/
def specEffectiveRequest (param : BuildParam) : BuildParam :=
  { param with
    Targets := if param.Targets = [] then defaultTargets else param.Targets
    Jobs := if param.Jobs ≤ 0 then 4 else param.Jobs }

/-- A host on which every check passes and every build succeeds without output. -/
def goodEnv : Env :=
  { stat := fun _ => StatResult.ok
    lookPath := fun _ => true
    mkdirAll := fun _ _ => none
    environ := []
    combinedOutput := fun _ _ => ("", none) }

/-- A host on which no file exists. -/
def emptyEnv : Env :=
  { goodEnv with stat := fun _ => StatResult.notExist }

/-- Whether what `os.Stat` reports tells that there is no file at the path: the path is
not there (`ENOENT`) or runs through a file that is not a directory (`ENOTDIR`). -/
def StatResult.pathAbsent : StatResult → Bool
  | StatResult.notExist => true
  | StatResult.notDir => true
  | _ => false

/-- A host on which `main.go` is a regular file, so that every path under it fails with
`ENOTDIR`; the toolchain is installed and every build fails with `exit status 1`. -/
def underFileEnv : Env :=
  { stat := fun path => if path = "main.go" then StatResult.ok else StatResult.notDir
    lookPath := fun _ => true
    mkdirAll := fun _ _ => none
    environ := []
    combinedOutput := fun _ _ => ("", some "exit status 1") }

/-- A request for a source path under the regular file `main.go`. -/
def underFileParam : BuildParam :=
  { SourceFile := "main.go/x.go", AppName := "", OutputDir := "", Targets := [], Jobs := 0 }

/-- The request with every field left at its zero value. -/
def zeroParam : BuildParam :=
  { SourceFile := "", AppName := "", OutputDir := "", Targets := [], Jobs := 0 }

/-- The invariant of the dispatch: what every reachable state satisfies. -/
structure Inv (cfg : Config) (s : DState) : Prop where
  noPanic : s.panicked = false
  targets : s.workers.map (fun w => w.t) ++ s.pending = cfg.targets
  errs : ∀ i w, s.workers[i]? = some w → w.pc.hasCompiled = true →
    w.err = cfg.compile i w.t cfg.sourceFile (outputPath cfg.outputDir cfg.appName w.t)
  sem : s.semaphore = holders s
  semLe : s.semaphore ≤ cfg.jobs
  wg : s.wg = unfinished s.workers
  sent : List.Perm (s.received ++ s.results) (sentResults cfg s.workers)
  lists : (s.builtTargets, s.failedTargets) = collect s.received
  spawning : s.main = MainPc.spawning → s.closer = CloserPc.notStarted
  notSpawning : s.main ≠ MainPc.spawning → s.pending = [] ∧ s.closer ≠ CloserPc.notStarted
  closerPast : s.closer = CloserPc.closing ∨ s.closer = CloserPc.done → s.wg = 0
  closedIff : s.closed = true ↔ s.closer = CloserPc.done
  returned : s.main = MainPc.returned → s.closed = true ∧ s.results = []

/-- The end-to-end scenario of the specification: Linux x64 and Windows x64, two
admission slots, output directory `bin`, app name `app`, an invoker that succeeds for
linux and fails for windows with `exit status 1`. -/
def scenarioConfig : Config :=
  { sourceFile := "./main.go"
    appName := "app"
    outputDir := "bin"
    jobs := 2
    targets := defaultTargets
    compile := fun _ t _ _ => if t.GOOS = "windows" then some "exit status 1" else none }

/-- A host for the scenario: every check passes, the build for windows fails with
`exit status 1` and no output, every other build succeeds. -/
def scenarioEnv : Env :=
  { stat := fun _ => StatResult.ok
    lookPath := fun _ => true
    mkdirAll := fun _ _ => none
    environ := []
    combinedOutput := fun _ cmd =>
      if "GOOS=windows" ∈ cmd.env then ("", some "exit status 1") else ("", none) }

/-- The request of the scenario. -/
def scenarioParam : BuildParam :=
  { SourceFile := "./main.go", AppName := "app", OutputDir := "bin",
    Targets := defaultTargets, Jobs := 2 }

/-- A byte list that is empty or ends in a separator: a whole number of path elements. -/
def Closed (pre : List Char) : Prop :=
  ∀ x, pre.getLast? = some x → isPathSeparator x = true

/-- A path element: no separator in it, and it is neither empty nor `.` nor `..`. -/
def RealElem (e : List Char) : Prop :=
  (∀ x ∈ e, isPathSeparator x = false) ∧ e ≠ [] ∧ e ≠ ['.'] ∧ e ≠ ['.', '.']

/-! ## Proofs -/

/-- The collection loop started from any pair of lists: successes are appended to the
first in order, failures to the second. -/
theorem foldl_collectStep (l : List buildTaskResult) (acc : List String × List String) :
    l.foldl collectStep acc =
      (acc.1 ++ (l.filter (fun r => r.success)).map builtLabel,
        acc.2 ++ (l.filter (fun r => !r.success)).map failedLabel) := by
  induction l generalizing acc with
  | nil => simp
  | cons r l ih =>
    rw [List.foldl_cons, ih]
    by_cases h : r.success = true <;> simp [collectStep, h]

theorem collect_eq (l : List buildTaskResult) :
    collect l = ((l.filter (fun r => r.success)).map builtLabel,
      (l.filter (fun r => !r.success)).map failedLabel) := by
  simp [collect, foldl_collectStep]

theorem collect_length (l : List buildTaskResult) :
    (collect l).1.length + (collect l).2.length = l.length := by
  rw [collect_eq]
  induction l with
  | nil => simp
  | cons r l ih =>
    by_cases h : r.success = true <;> simp [h, List.filter_cons] at ih ⊢ <;> omega

theorem summarize_success_iff (dir : String) (lists : List String × List String) :
    (summarize dir lists).Success = true ↔ (summarize dir lists).FailedTargets = [] := by
  simp [summarize, List.length_eq_zero]

/-- C4. The derived output file name is `a_p_r`, followed by `.exe` exactly when the
platform is `windows`; it is the same for every display label, and the path handed to
the compile step is that name joined to the output directory whatever the source path,
the concurrency limit, the target list and the invoker are. -/
theorem outputName_spec (a p r n : String) :
    outputName a { GOOS := p, GOARCH := r, Name := n }
        = a ++ "_" ++ p ++ "_" ++ r ++ (if p = "windows" then ".exe" else "")
      ∧ outputName "app" { GOOS := "windows", GOARCH := "amd64", Name := n }
        = "app_windows_amd64.exe"
      ∧ outputName "app" { GOOS := "linux", GOARCH := "amd64", Name := n }
        = "app_linux_amd64"
      ∧ ∀ (src dir : String) (jobs : Nat) (ts : List BuildTarget)
          (inv : Nat → BuildTarget → String → String → Option String) (pc : WorkerPc)
          (err : Option String),
          (taskResult
              { sourceFile := src, appName := a, outputDir := dir, jobs := jobs,
                targets := ts, compile := inv }
              { t := { GOOS := p, GOARCH := r, Name := n }, pc := pc, err := err }).path
            = filepathJoin
                [dir, a ++ "_" ++ p ++ "_" ++ r ++ (if p = "windows" then ".exe" else "")] := by
  refine ⟨rfl, rfl, rfl, ?_⟩
  intro src dir jobs ts inv pc err
  rfl

/-- Lines 89-100 and 130-139, field by field. -/
theorem effectiveRequest_eq (param : BuildParam) :
    effectiveRequest param =
      { SourceFile := if param.SourceFile = "" then "./main.go" else param.SourceFile
        AppName := if param.AppName = "" then "app" else param.AppName
        OutputDir := if param.OutputDir = "" then "bin" else param.OutputDir
        Targets := if param.Targets = [] then defaultTargets else param.Targets
        Jobs := if param.Jobs ≤ 0 then 4 else param.Jobs } := by
  obtain ⟨src, app, dir, ts, jobs⟩ := param
  by_cases h1 : src = "" <;> by_cases h2 : app = "" <;> by_cases h3 : dir = ""
    <;> by_cases h4 : jobs ≤ 0 <;> by_cases h5 : ts = []
    <;> simp [effectiveRequest, applyDefaults, effectiveTargets, defaultTargets, h1, h2, h3, h4, h5]

theorem dispatchConfig_jobs (env : Env) (param : BuildParam) :
    ((dispatchConfig env (applyDefaults param)).jobs : Int) = (effectiveRequest param).Jobs
      ∧ 1 ≤ (dispatchConfig env (applyDefaults param)).jobs
      ∧ 1 ≤ (effectiveRequest param).Jobs := by
  have hJ : 1 ≤ (effectiveRequest param).Jobs := by
    rw [effectiveRequest_eq]
    by_cases h : param.Jobs ≤ 0 <;> simp [h]
    omega
  have hj : (dispatchConfig env (applyDefaults param)).jobs
      = (effectiveRequest param).Jobs.toNat := rfl
  refine ⟨?_, ?_, hJ⟩
  · rw [hj]; omega
  · rw [hj]; omega

/-- C8 as stated fails: with an empty source path (or app name, or output directory) the
effective request differs from the given one in more than the target list and the
concurrency limit. -/
theorem specEffectiveRequest_fails :
    effectiveRequest zeroParam ≠ specEffectiveRequest zeroParam
      ∧ (effectiveRequest zeroParam).SourceFile = "./main.go"
      ∧ (specEffectiveRequest zeroParam).SourceFile = "" := by
  decide

/-- C8, amended. The effective request equals the given one except that an empty source
path becomes `./main.go`, an empty app name `app`, an empty output directory `bin`, an
empty target list the two-entry list Linux x64, Windows x64, and a concurrency limit
`≤ 0` becomes 4; so the limit is at least 1 and the target list non-empty, and these are
the values the dispatch runs with. -/
theorem request_defaulting (env : Env) (param : BuildParam) :
    effectiveRequest param =
        { SourceFile := if param.SourceFile = "" then "./main.go" else param.SourceFile
          AppName := if param.AppName = "" then "app" else param.AppName
          OutputDir := if param.OutputDir = "" then "bin" else param.OutputDir
          Targets := if param.Targets = [] then defaultTargets else param.Targets
          Jobs := if param.Jobs ≤ 0 then 4 else param.Jobs }
      ∧ defaultTargets =
          [ { GOOS := "linux", GOARCH := "amd64", Name := "Linux x64" },
            { GOOS := "windows", GOARCH := "amd64", Name := "Windows x64" } ]
      ∧ 1 ≤ (effectiveRequest param).Jobs
      ∧ (effectiveRequest param).Targets ≠ []
      ∧ ((dispatchConfig env (applyDefaults param)).jobs : Int) = (effectiveRequest param).Jobs
      ∧ 1 ≤ (dispatchConfig env (applyDefaults param)).jobs
      ∧ (dispatchConfig env (applyDefaults param)).targets = (effectiveRequest param).Targets := by
  obtain ⟨h1, h2, h3⟩ := dispatchConfig_jobs env param
  refine ⟨effectiveRequest_eq param, rfl, h3, ?_, h1, h2, rfl⟩
  rw [effectiveRequest_eq]
  by_cases h : param.Targets = [] <;> simp [h, defaultTargets]

/-! ### The invariant of the dispatch -/

theorem inv_init (cfg : Config) : Inv cfg (DState.init cfg) := by
  constructor <;> simp [DState.init, holders, unfinished, sentResults, collect]

theorem collect_append_one (l : List buildTaskResult) (r : buildTaskResult) :
    collect (l ++ [r]) = collectStep (collect l) r := by
  simp [collect, List.foldl_append]

theorem inv_stepMain {cfg : Config} {s s1 : DState} (inv : Inv cfg s)
    (h : stepMain s = some s1) : Inv cfg s1 := by
  unfold stepMain at h
  split at h
  · -- the loop of lines 146-168, or the go statement of line 170
    rename_i hmain
    have hcl := inv.spawning hmain
    split at h
    · rename_i t rest hpend
      simp only [Option.some.injEq] at h
      subst h
      constructor
      · exact inv.noPanic
      · simpa [hpend] using inv.targets
      · intro i w hw hc
        simp only [List.getElem?_append] at hw
        split at hw
        · exact inv.errs i w hw hc
        · rename_i hlt
          rcases Nat.lt_or_ge (i - s.workers.length) 1 with h0 | h0
          · have : i - s.workers.length = 0 := by omega
            simp [this] at hw
            subst hw
            simp [WorkerPc.hasCompiled] at hc
          · rw [List.getElem?_eq_none (by simpa using h0)] at hw
            cases hw
      · simpa [holders, WorkerPc.holdsSlot] using inv.sem
      · exact inv.semLe
      · simpa [unfinished] using inv.wg
      · simpa [sentResults, WorkerPc.hasSent] using inv.sent
      · exact inv.lists
      · intro _; exact hcl
      · intro hne; exact absurd hmain hne
      · intro hc; rcases hc with hc | hc <;> simp [hcl] at hc
      · exact inv.closedIff
      · intro hr; simp [hmain] at hr
    · rename_i hpend
      simp only [Option.some.injEq] at h
      subst h
      constructor
      · exact inv.noPanic
      · exact inv.targets
      · exact inv.errs
      · exact inv.sem
      · exact inv.semLe
      · exact inv.wg
      · exact inv.sent
      · exact inv.lists
      · intro hc; simp at hc
      · intro _; exact ⟨hpend, by simp⟩
      · intro hc; simp at hc
      · have := inv.closedIff
        simp only [hcl] at this
        simpa using this
      · intro hc; simp at hc
  · -- the loop of lines 178-184
    rename_i hmain
    have hns := inv.notSpawning (by simp [hmain])
    split at h
    · rename_i result rest hres
      simp only [Option.some.injEq] at h
      subst h
      constructor
      · exact inv.noPanic
      · exact inv.targets
      · exact inv.errs
      · exact inv.sem
      · exact inv.semLe
      · exact inv.wg
      · simpa [hres] using inv.sent
      · simp only [collect_append_one, ← inv.lists]
      · intro hc; simp [hmain] at hc
      · intro _; exact hns
      · exact inv.closerPast
      · exact inv.closedIff
      · intro hc; simp [hmain] at hc
    · rename_i hres
      split at h
      · rename_i hclosed
        simp only [Option.some.injEq] at h
        subst h
        constructor
        · exact inv.noPanic
        · exact inv.targets
        · exact inv.errs
        · exact inv.sem
        · exact inv.semLe
        · exact inv.wg
        · exact inv.sent
        · exact inv.lists
        · intro hc; simp at hc
        · intro _; exact hns
        · exact inv.closerPast
        · exact inv.closedIff
        · intro _; exact ⟨hclosed, hres⟩
      · cases h
  · cases h

theorem inv_stepCloser {cfg : Config} {s s1 : DState} (inv : Inv cfg s)
    (h : stepCloser s = some s1) : Inv cfg s1 := by
  unfold stepCloser at h
  split at h
  · cases h
  · rename_i hcl
    split at h
    · rename_i hwg
      simp only [Option.some.injEq] at h
      subst h
      have hmain : s.main ≠ MainPc.spawning := by
        intro hm; have := inv.spawning hm; simp [hcl] at this
      constructor
      · exact inv.noPanic
      · exact inv.targets
      · exact inv.errs
      · exact inv.sem
      · exact inv.semLe
      · exact inv.wg
      · exact inv.sent
      · exact inv.lists
      · intro hm; exact absurd hm hmain
      · intro _; exact ⟨(inv.notSpawning hmain).1, by simp⟩
      · intro _; exact hwg
      · have := inv.closedIff
        simp only [hcl] at this
        simpa using this
      · exact inv.returned
    · cases h
  · rename_i hcl
    have hnc : s.closed = false := by
      have := inv.closedIff
      simp only [hcl] at this
      simpa using this
    simp only [hnc, Bool.false_eq_true, if_false, Option.some.injEq] at h
    subst h
    have hmain : s.main ≠ MainPc.spawning := by
      intro hm; have := inv.spawning hm; simp [hcl] at this
    constructor
    · exact inv.noPanic
    · exact inv.targets
    · exact inv.errs
    · exact inv.sem
    · exact inv.semLe
    · exact inv.wg
    · exact inv.sent
    · exact inv.lists
    · intro hm; exact absurd hm hmain
    · intro _; exact ⟨(inv.notSpawning hmain).1, by simp⟩
    · intro _; exact inv.closerPast (Or.inl hcl)
    · simp
    · intro hm
      have := (inv.returned hm).1
      simp [hnc] at this
  · cases h

theorem set_decomp {α : Type} {ws : List α} {i : Nat} {w : α} (h : ws[i]? = some w) :
    ∃ l1 l2, ws = l1 ++ w :: l2 ∧ l1.length = i ∧ ∀ w1, ws.set i w1 = l1 ++ w1 :: l2 := by
  obtain ⟨hlt, hget⟩ := List.getElem?_eq_some.mp h
  refine ⟨ws.take i, ws.drop (i + 1), ?_, ?_, ?_⟩
  · rw [← hget, ← List.drop_eq_getElem_cons hlt, List.take_append_drop]
  · simp; omega
  · intro w1
    rw [List.set_eq_take_append_cons_drop, if_pos hlt]

theorem errs_set {cfg : Config} {ws : List Worker} {i : Nat} {w1 : Worker}
    (herrs : ∀ j x, ws[j]? = some x → x.pc.hasCompiled = true →
      x.err = cfg.compile j x.t cfg.sourceFile (outputPath cfg.outputDir cfg.appName x.t))
    (hw1 : w1.pc.hasCompiled = true →
      w1.err = cfg.compile i w1.t cfg.sourceFile (outputPath cfg.outputDir cfg.appName w1.t)) :
    ∀ j x, (ws.set i w1)[j]? = some x → x.pc.hasCompiled = true →
      x.err = cfg.compile j x.t cfg.sourceFile (outputPath cfg.outputDir cfg.appName x.t) := by
  intro j x hx hc
  rw [List.getElem?_set] at hx
  split at hx
  · rename_i hij
    subst hij
    split at hx
    · simp only [Option.some.injEq] at hx
      subst hx
      exact hw1 hc
    · cases hx
  · exact herrs j x hx hc

theorem inv_stepWorker {cfg : Config} {s s1 : DState} {i : Nat} (inv : Inv cfg s)
    (h : stepWorker cfg s i = some s1) : Inv cfg s1 := by
  unfold stepWorker at h
  split at h
  · cases h
  · rename_i w hw
    obtain ⟨l1, l2, hws, hlen, hset⟩ := set_decomp hw
    have hsem := inv.sem
    have hwg := inv.wg
    have hsent := inv.sent
    have htargets := inv.targets
    simp only [holders, unfinished, sentResults, hws, List.countP_append, List.countP_cons,
      List.filter_append, List.filter_cons, List.map_append, List.map_cons] at hsem hwg hsent htargets
    split at h
    · -- semaphore <- struct{}{}
      rename_i hpc
      split at h
      · rename_i hlt
        simp only [Option.some.injEq] at h
        subst h
        simp only [hpc, WorkerPc.holdsSlot, WorkerPc.hasSent] at hsem hwg hsent
        constructor
        · exact inv.noPanic
        · simpa [hset] using htargets
        · exact errs_set inv.errs (by simp [WorkerPc.hasCompiled])
        · simp [holders, hset, List.countP_append, List.countP_cons, WorkerPc.holdsSlot]
          simp at hsem
          omega
        · simp; omega
        · simpa [unfinished, hset, List.countP_append, List.countP_cons] using hwg
        · simpa [sentResults, hset, List.filter_append, List.filter_cons, WorkerPc.hasSent]
            using hsent
        · exact inv.lists
        · exact inv.spawning
        · exact inv.notSpawning
        · exact inv.closerPast
        · exact inv.closedIff
        · exact inv.returned
      · cases h
    · -- err := compileTarget(t, param.SourceFile, outputPath)
      rename_i hpc
      simp only [Option.some.injEq] at h
      subst h
      simp only [hpc, WorkerPc.holdsSlot, WorkerPc.hasSent] at hsem hwg hsent
      constructor
      · exact inv.noPanic
      · simpa [hset] using htargets
      · exact errs_set inv.errs (by simp)
      · simp [holders, hset, List.countP_append, List.countP_cons, WorkerPc.holdsSlot]
        simp at hsem
        omega
      · exact inv.semLe
      · simpa [unfinished, hset, List.countP_append, List.countP_cons] using hwg
      · simpa [sentResults, hset, List.filter_append, List.filter_cons, WorkerPc.hasSent]
          using hsent
      · exact inv.lists
      · exact inv.spawning
      · exact inv.notSpawning
      · exact inv.closerPast
      · exact inv.closedIff
      · exact inv.returned
    · -- results <- buildTaskResult{...}
      rename_i hpc
      simp only [hpc, WorkerPc.holdsSlot, WorkerPc.hasSent] at hsem hwg hsent
      have hnc : s.closed = false := by
        cases hc : s.closed
        · rfl
        · have h0 := inv.closerPast (Or.inr (inv.closedIff.mp hc))
          simp at hwg
          omega
      simp only [hnc, Bool.false_eq_true, if_false] at h
      split at h
      · rename_i hlt
        simp only [Option.some.injEq] at h
        subst h
        constructor
        · exact inv.noPanic
        · simpa [hset] using htargets
        · exact errs_set inv.errs (fun _ => inv.errs i w hw (by simp [hpc, WorkerPc.hasCompiled]))
        · simp [holders, hset, List.countP_append, List.countP_cons, WorkerPc.holdsSlot]
          simp at hsem
          omega
        · exact inv.semLe
        · simpa [unfinished, hset, List.countP_append, List.countP_cons] using hwg
        · simp only [sentResults, hset, List.filter_append, List.filter_cons, WorkerPc.hasSent,
            if_true, List.map_append, List.map_cons]
          simp only [Bool.false_eq_true, if_false] at hsent
          have hr : taskResult cfg { w with pc := WorkerPc.release } = taskResult cfg w := rfl
          rw [hr, ← List.append_assoc]
          refine List.Perm.trans ?_ List.perm_middle.symm
          refine List.Perm.trans (List.perm_append_singleton _ _) ?_
          exact List.Perm.cons _ hsent
        · exact inv.lists
        · exact inv.spawning
        · exact inv.notSpawning
        · exact inv.closerPast
        · simpa [hnc] using inv.closedIff
        · intro hm
          have := (inv.returned hm).1
          simp [hnc] at this
      · cases h
    · -- the deferred <-semaphore
      rename_i hpc
      simp only [hpc, WorkerPc.holdsSlot, WorkerPc.hasSent] at hsem hwg hsent
      split at h
      · rename_i hpos
        simp only [Option.some.injEq] at h
        subst h
        constructor
        · exact inv.noPanic
        · simpa [hset] using htargets
        · exact errs_set inv.errs (fun _ => inv.errs i w hw (by simp [hpc, WorkerPc.hasCompiled]))
        · simp [holders, hset, List.countP_append, List.countP_cons, WorkerPc.holdsSlot]
          simp at hsem
          omega
        · have := inv.semLe
          simp; omega
        · simpa [unfinished, hset, List.countP_append, List.countP_cons] using hwg
        · simpa [sentResults, hset, List.filter_append, List.filter_cons, WorkerPc.hasSent,
            taskResult] using hsent
        · exact inv.lists
        · exact inv.spawning
        · exact inv.notSpawning
        · exact inv.closerPast
        · exact inv.closedIff
        · exact inv.returned
      · cases h
    · -- the deferred wg.Done()
      rename_i hpc
      simp only [hpc, WorkerPc.holdsSlot, WorkerPc.hasSent] at hsem hwg hsent
      have hpos : s.wg ≠ 0 := by
        simp at hwg
        omega
      simp only [hpos, if_false, Option.some.injEq] at h
      subst h
      constructor
      · exact inv.noPanic
      · simpa [hset] using htargets
      · exact errs_set inv.errs (fun _ => inv.errs i w hw (by simp [hpc, WorkerPc.hasCompiled]))
      · simp [holders, hset, List.countP_append, List.countP_cons, WorkerPc.holdsSlot]
        simp at hsem
        omega
      · exact inv.semLe
      · simp [unfinished, hset, List.countP_append, List.countP_cons]
        simp at hwg
        omega
      · simpa [sentResults, hset, List.filter_append, List.filter_cons, WorkerPc.hasSent,
          taskResult] using hsent
      · exact inv.lists
      · exact inv.spawning
      · exact inv.notSpawning
      · intro hc
        have := inv.closerPast hc
        simp; omega
      · exact inv.closedIff
      · exact inv.returned
    · cases h

theorem inv_step {cfg : Config} {s s1 : DState} {e : Event} (inv : Inv cfg s)
    (h : step cfg s e = some s1) : Inv cfg s1 := by
  unfold step at h
  split at h
  · cases h
  · cases e with
    | main => exact inv_stepMain inv h
    | closer => exact inv_stepCloser inv h
    | worker i => exact inv_stepWorker inv h

theorem inv_exec {cfg : Config} (es : List Event) {s s1 : DState} (inv : Inv cfg s)
    (h : exec cfg es s = some s1) : Inv cfg s1 := by
  induction es generalizing s with
  | nil =>
    simp only [exec, Option.some.injEq] at h
    exact h ▸ inv
  | cons e es ih =>
    simp only [exec] at h
    split at h
    · cases h
    · rename_i s2 hs2
      exact ih (inv_step inv hs2) h

/-! ### Termination: every step uses up the measure -/

theorem measure_stepMain {cfg : Config} {s s1 : DState} (inv : Inv cfg s)
    (h : stepMain s = some s1) : s1.measure < s.measure := by
  unfold stepMain at h
  split at h
  · rename_i hmain
    split at h
    · rename_i t rest hpend
      simp only [Option.some.injEq] at h
      subst h
      simp [DState.measure, hpend, hmain, WorkerPc.weight]
      omega
    · simp only [Option.some.injEq] at h
      subst h
      simp [DState.measure, hmain, inv.spawning hmain, MainPc.weight, CloserPc.weight]
  · rename_i hmain
    split at h
    · rename_i result rest hres
      simp only [Option.some.injEq] at h
      subst h
      simp [DState.measure, hres, hmain]
    · split at h
      · simp only [Option.some.injEq] at h
        subst h
        simp [DState.measure, hmain, MainPc.weight]
      · cases h
  · cases h

theorem measure_stepCloser {s s1 : DState} (hp : s.panicked = false)
    (h : stepCloser s = some s1) : s1.measure < s.measure := by
  unfold stepCloser at h
  split at h
  · cases h
  · rename_i hcl
    split at h
    · simp only [Option.some.injEq] at h
      subst h
      simp [DState.measure, hcl, CloserPc.weight]
    · cases h
  · rename_i hcl
    split at h
    · simp only [Option.some.injEq] at h
      subst h
      simp [DState.measure, hcl, hp]
    · simp only [Option.some.injEq] at h
      subst h
      simp [DState.measure, hcl, CloserPc.weight]
  · cases h

theorem weight_eqs :
    WorkerPc.acquire.weight = 6 ∧ WorkerPc.compile.weight = 5 ∧ WorkerPc.send.weight = 4
      ∧ WorkerPc.release.weight = 2 ∧ WorkerPc.wgDone.weight = 1
      ∧ WorkerPc.finished.weight = 0 :=
  ⟨rfl, rfl, rfl, rfl, rfl, rfl⟩

theorem measure_stepWorker {cfg : Config} {s s1 : DState} {i : Nat} (hp : s.panicked = false)
    (h : stepWorker cfg s i = some s1) : s1.measure < s.measure := by
  unfold stepWorker at h
  split at h
  · cases h
  · rename_i w hw
    obtain ⟨l1, l2, hws, hlen, hset⟩ := set_decomp hw
    have hm : s.measure = (if s.panicked then 0 else 1) + 7 * s.pending.length
        + ((l1.map (fun w => w.pc.weight)).sum
          + (w.pc.weight + (l2.map (fun w => w.pc.weight)).sum))
        + s.results.length + s.main.weight + s.closer.weight := by
      simp [DState.measure, hws]
    have hm1 : ∀ w1 : Worker, ((s.workers.set i w1).map (fun w => w.pc.weight)).sum
        = (l1.map (fun w => w.pc.weight)).sum
          + (w1.pc.weight + (l2.map (fun w => w.pc.weight)).sum) := by
      intro w1
      simp [hset]
    rw [hm]
    split at h
    · rename_i hpc
      split at h
      · simp only [Option.some.injEq] at h
        subst h
        simp only [DState.measure, hm1, hpc, weight_eqs]
        omega
      · cases h
    · rename_i hpc
      simp only [Option.some.injEq] at h
      subst h
      simp only [DState.measure, hm1, hpc, weight_eqs]
      omega
    · rename_i hpc
      split at h
      · simp only [Option.some.injEq] at h
        subst h
        simp [DState.measure, hp, hws]
      · split at h
        · simp only [Option.some.injEq] at h
          subst h
          simp only [DState.measure, hm1, hpc, weight_eqs, List.length_append,
            List.length_singleton]
          omega
        · cases h
    · rename_i hpc
      split at h
      · simp only [Option.some.injEq] at h
        subst h
        simp only [DState.measure, hm1, hpc, weight_eqs]
        omega
      · cases h
    · rename_i hpc
      split at h
      · simp only [Option.some.injEq] at h
        subst h
        simp [DState.measure, hp, hws]
      · simp only [Option.some.injEq] at h
        subst h
        simp only [DState.measure, hm1, hpc, weight_eqs]
        omega
    · cases h

theorem measure_step {cfg : Config} {s s1 : DState} {e : Event} (inv : Inv cfg s)
    (h : step cfg s e = some s1) : s1.measure < s.measure := by
  unfold step at h
  split at h
  · cases h
  · rename_i hp
    have hp1 : s.panicked = false := by simpa using hp
    cases e with
    | main => exact measure_stepMain inv h
    | closer => exact measure_stepCloser hp1 h
    | worker i => exact measure_stepWorker hp1 h

/-! ### Progress: a dispatch that has not returned can move -/

theorem mem_enabled_of_step {cfg : Config} {s : DState} {e : Event}
    (h : (step cfg s e).isSome = true) : e ∈ enabled cfg s := by
  unfold enabled
  rw [List.mem_filter]
  refine ⟨?_, h⟩
  cases e with
  | main => simp
  | closer => simp
  | worker i =>
    have hi : i < s.workers.length := by
      by_contra hge
      have hnone : s.workers[i]? = none := List.getElem?_eq_none (by omega)
      unfold step at h
      split at h
      · simp at h
      · simp [stepWorker, hnone] at h
    simp [hi]

theorem step_of_mem_enabled {cfg : Config} {s : DState} {e : Event}
    (h : e ∈ enabled cfg s) : (step cfg s e).isSome = true := by
  unfold enabled at h
  exact (List.mem_filter.mp h).2

theorem holder_can_step {cfg : Config} {s : DState} {i : Nat} {w : Worker} (inv : Inv cfg s)
    (hw : s.workers[i]? = some w) (hh : w.pc.holdsSlot = true) (hres : s.results = [])
    (hnc : s.closed = false) : (stepWorker cfg s i).isSome = true := by
  have hmem : w ∈ s.workers := List.mem_iff_getElem?.mpr ⟨i, hw⟩
  have hsem : 0 < s.semaphore := by
    rw [inv.sem, holders]
    exact List.countP_pos_iff.mpr ⟨w, hmem, hh⟩
  have hlen : 0 < cfg.targets.length := by
    rw [← inv.targets]
    have : 0 < s.workers.length := List.length_pos_of_mem hmem
    simp
    omega
  rcases hpc : w.pc <;> simp [hpc, WorkerPc.holdsSlot] at hh
  · simp [stepWorker, hw, hpc]
  · simp [stepWorker, hw, hpc, hnc, hres, hlen]
  · simp [stepWorker, hw, hpc, hsem]

theorem progress {cfg : Config} {s : DState} (inv : Inv cfg s) (hjobs : 1 ≤ cfg.jobs)
    (hmain : s.main ≠ MainPc.returned) : ∃ e, (step cfg s e).isSome = true := by
  have hp := inv.noPanic
  have hstepW : ∀ i, step cfg s (Event.worker i) = stepWorker cfg s i := by
    intro i; simp [step, hp]
  rcases hm : s.main with _ | _ | _
  · -- still in the loop of lines 146-168
    refine ⟨Event.main, ?_⟩
    simp only [step, hp, Bool.false_eq_true, if_false, stepMain, hm]
    split <;> simp
  · rcases hres : s.results with _ | ⟨r, rest⟩
    · by_cases hc : s.closed = true
      · refine ⟨Event.main, ?_⟩
        simp [step, hp, stepMain, hm, hres, hc]
      · have hnc : s.closed = false := by simpa using hc
        have hnd : s.closer ≠ CloserPc.done := fun hd => hc (inv.closedIff.mpr hd)
        have hns := (inv.notSpawning (by simp [hm])).2
        rcases hcl : s.closer with _ | _ | _ | _
        · exact absurd hcl hns
        · by_cases hwg : s.wg = 0
          · refine ⟨Event.closer, ?_⟩
            simp [step, hp, stepCloser, hcl, hwg]
          · -- some task has not finished
            have hpos : 0 < unfinished s.workers := by
              rw [← inv.wg]; omega
            obtain ⟨w, hmem, hwpc⟩ := List.countP_pos_iff.mp hpos
            obtain ⟨i, hw⟩ := List.mem_iff_getElem?.mp hmem
            rcases hpc : w.pc with _ | _ | _ | _ | _ | _
            · by_cases hlt : s.semaphore < cfg.jobs
              · refine ⟨Event.worker i, ?_⟩
                rw [hstepW]
                simp [stepWorker, hw, hpc, hlt]
              · have hpos2 : 0 < holders s := by
                  rw [← inv.sem]; omega
                obtain ⟨w2, hmem2, hh2⟩ := List.countP_pos_iff.mp hpos2
                obtain ⟨i2, hw2⟩ := List.mem_iff_getElem?.mp hmem2
                refine ⟨Event.worker i2, ?_⟩
                rw [hstepW]
                exact holder_can_step inv hw2 hh2 hres hnc
            · refine ⟨Event.worker i, ?_⟩
              rw [hstepW]
              exact holder_can_step inv hw (by simp [hpc, WorkerPc.holdsSlot]) hres hnc
            · refine ⟨Event.worker i, ?_⟩
              rw [hstepW]
              exact holder_can_step inv hw (by simp [hpc, WorkerPc.holdsSlot]) hres hnc
            · refine ⟨Event.worker i, ?_⟩
              rw [hstepW]
              exact holder_can_step inv hw (by simp [hpc, WorkerPc.holdsSlot]) hres hnc
            · refine ⟨Event.worker i, ?_⟩
              rw [hstepW]
              simp only [stepWorker, hw, hpc]
              split <;> simp
            · simp [hpc] at hwpc
        · refine ⟨Event.closer, ?_⟩
          simp only [step, hp, Bool.false_eq_true, if_false, stepCloser, hcl]
          split <;> simp
        · exact absurd hcl hnd
    · refine ⟨Event.main, ?_⟩
      simp [step, hp, stepMain, hm, hres]
  · exact absurd hm hmain

theorem measure_pos {cfg : Config} {s : DState} (inv : Inv cfg s) : 0 < s.measure := by
  simp [DState.measure, inv.noPanic]

theorem getD_mem_cons {α : Type} (e : α) (es : List α) (k : Nat) :
    (e :: es).getD (k % (es.length + 1)) e ∈ e :: es := by
  have hlt : k % (es.length + 1) < (e :: es).length := by
    simp only [List.length_cons]
    exact Nat.mod_lt _ (Nat.succ_pos _)
  rw [List.getD_eq_getElem _ _ hlt]
  exact List.getElem_mem _

/-- With fuel for the whole measure, a run from a state of the invariant ends past the
collection loop, in a state of the invariant. -/
theorem run_returns {cfg : Config} (hjobs : 1 ≤ cfg.jobs) :
    ∀ (fuel : Nat) (choices : List Nat) (s : DState), Inv cfg s → s.measure ≤ fuel →
      Inv cfg (run cfg fuel choices s) ∧ (run cfg fuel choices s).main = MainPc.returned := by
  intro fuel
  induction fuel with
  | zero =>
    intro choices s inv hle
    have := measure_pos inv
    omega
  | succ fuel ih =>
    intro choices s inv hle
    unfold run
    split
    · rename_i hen
      refine ⟨inv, ?_⟩
      by_contra hmain
      obtain ⟨e, he⟩ := progress inv hjobs hmain
      have := mem_enabled_of_step he
      rw [hen] at this
      cases this
    · rename_i e es hen
      have hmem : (e :: es).getD (choices.headD 0 % (es.length + 1)) e ∈ enabled cfg s := by
        rw [hen]; exact getD_mem_cons e es _
      have hsome := step_of_mem_enabled hmem
      split
      · rename_i hnone
        rw [hnone] at hsome
        cases hsome
      · rename_i s1 hs1
        have hlt := measure_step inv hs1
        exact ih choices.tail s1 (inv_step inv hs1) (by omega)

/-- Every run is an execution of the transition system. -/
theorem run_exec (cfg : Config) :
    ∀ (fuel : Nat) (choices : List Nat) (s : DState),
      ∃ es, exec cfg es s = some (run cfg fuel choices s) := by
  intro fuel
  induction fuel with
  | zero => intro choices s; exact ⟨[], rfl⟩
  | succ fuel ih =>
    intro choices s
    unfold run
    split
    · exact ⟨[], rfl⟩
    · rename_i e es hen
      split
      · exact ⟨[], rfl⟩
      · rename_i s1 hs1
        obtain ⟨es1, hes1⟩ := ih choices.tail s1
        refine ⟨(e :: es).getD (choices.headD 0 % (es.length + 1)) e :: es1, ?_⟩
        show (match step cfg s ((e :: es).getD (choices.headD 0 % (es.length + 1)) e) with
          | none => none
          | some s1 => exec cfg es1 s1) = _
        rw [hs1]
        exact hes1

theorem inv_run (cfg : Config) (fuel : Nat) (choices : List Nat) {s : DState}
    (inv : Inv cfg s) : Inv cfg (run cfg fuel choices s) := by
  obtain ⟨es, hes⟩ := run_exec cfg fuel choices s
  exact inv_exec es inv hes

/-- Every execution of the transition system is the run under some scheduler. -/
theorem exec_run (cfg : Config) :
    ∀ (es : List Event) (s s1 : DState), exec cfg es s = some s1 →
      ∃ choices : List Nat, run cfg es.length choices s = s1 := by
  intro es
  induction es with
  | nil =>
    intro s s1 h
    simp only [exec, Option.some.injEq] at h
    exact ⟨[], by rw [← h]; rfl⟩
  | cons e es ih =>
    intro s s1 h
    simp only [exec] at h
    split at h
    · cases h
    · rename_i s2 hs2
      obtain ⟨choices, hch⟩ := ih s2 s1 h
      have hmem : e ∈ enabled cfg s := mem_enabled_of_step (by rw [hs2]; rfl)
      obtain ⟨k, hk, hget⟩ := List.getElem_of_mem hmem
      refine ⟨k :: choices, ?_⟩
      simp only [List.length_cons]
      unfold run
      split
      · rename_i hen
        rw [hen] at hk
        simp at hk
      · rename_i e0 es0 hen
        have hk2 : k < es0.length + 1 := by
          have := hk
          rw [hen] at this
          simpa using this
        have hsel : (e0 :: es0).getD ((k :: choices).headD 0 % (es0.length + 1)) e0 = e := by
          simp only [List.headD_cons, Nat.mod_eq_of_lt hk2]
          rw [List.getD_eq_getElem _ _ (by simpa using hk2)]
          simp only [← hen]
          exact hget
        rw [hsel, hs2]
        exact hch

/-! ### What a returned dispatch has received -/

theorem final_state {cfg : Config} {s : DState} (inv : Inv cfg s)
    (hmain : s.main = MainPc.returned) :
    s.pending = [] ∧ s.results = [] ∧ s.semaphore = 0
      ∧ (∀ w ∈ s.workers, w.pc = WorkerPc.finished)
      ∧ s.workers.map (fun w => w.t) = cfg.targets
      ∧ s.workers.map (taskResult cfg) = expectedOutcomes cfg
      ∧ List.Perm s.received (expectedOutcomes cfg) := by
  obtain ⟨hclosed, hres⟩ := inv.returned hmain
  have hpend := (inv.notSpawning (by simp [hmain])).1
  have hwg := inv.closerPast (Or.inr (inv.closedIff.mp hclosed))
  have hfin : ∀ w ∈ s.workers, w.pc = WorkerPc.finished := by
    have h0 : unfinished s.workers = 0 := by rw [← inv.wg]; exact hwg
    intro w hw
    have := (List.countP_eq_zero.mp h0) w hw
    simpa using this
  have htargets : s.workers.map (fun w => w.t) = cfg.targets := by
    have := inv.targets
    simpa [hpend] using this
  have hout : s.workers.map (taskResult cfg) = expectedOutcomes cfg := by
    unfold expectedOutcomes
    rw [← htargets]
    apply List.ext_getElem?
    intro n
    rw [List.getElem?_mapIdx, List.getElem?_map, List.getElem?_map]
    rcases hw : s.workers[n]? with _ | w
    · simp
    · have hmem : w ∈ s.workers := List.mem_iff_getElem?.mpr ⟨n, hw⟩
      have herr := inv.errs n w hw (by simp [hfin w hmem, WorkerPc.hasCompiled])
      simp [expectedOutcome, taskResult, herr]
  have hsent : sentResults cfg s.workers = s.workers.map (taskResult cfg) := by
    unfold sentResults
    rw [List.filter_eq_self.mpr]
    intro w hw
    simp [hfin w hw, WorkerPc.hasSent]
  have hsem : s.semaphore = 0 := by
    rw [inv.sem, holders, List.countP_eq_zero]
    intro w hw
    simp [hfin w hw, WorkerPc.holdsSlot]
  refine ⟨hpend, hres, hsem, hfin, htargets, hout, ?_⟩
  have := inv.sent
  rw [hres, List.append_nil, hsent, hout] at this
  exact this


theorem expectedOutcomes_targets (cfg : Config) :
    (expectedOutcomes cfg).map (fun r => r.target) = cfg.targets := by
  apply List.ext_getElem?
  intro n
  rw [expectedOutcomes, List.getElem?_map, List.getElem?_mapIdx]
  rcases cfg.targets[n]? with _ | t <;> simp [expectedOutcome, taskResult]

theorem expectedOutcomes_length (cfg : Config) :
    (expectedOutcomes cfg).length = cfg.targets.length := by
  rw [← List.length_map (expectedOutcomes cfg) (fun r => r.target), expectedOutcomes_targets]

theorem dispatch_returns {cfg : Config} (hjobs : 1 ≤ cfg.jobs) (choices : List Nat) :
    Inv cfg (dispatch cfg choices) ∧ (dispatch cfg choices).main = MainPc.returned :=
  run_returns hjobs _ choices _ (inv_init cfg) (Nat.le_refl _)

theorem inv_dispatch (cfg : Config) (choices : List Nat) : Inv cfg (dispatch cfg choices) :=
  inv_run cfg _ choices (inv_init cfg)

theorem lists_eq_collect {cfg : Config} {s : DState} (inv : Inv cfg s) :
    s.builtTargets = ((s.received.filter (fun r => r.success)).map builtLabel)
      ∧ s.failedTargets = ((s.received.filter (fun r => !r.success)).map failedLabel) := by
  have h := inv.lists
  rw [collect_eq] at h
  exact ⟨congrArg Prod.fst h, congrArg Prod.snd h⟩

theorem applyDefaults_sourceFile (param : BuildParam) :
    (applyDefaults param).SourceFile
      = if param.SourceFile = "" then "./main.go" else param.SourceFile := by
  have h := congrArg BuildParam.SourceFile (effectiveRequest_eq param)
  exact h

theorem build_preconditions_hold {env : Env} {param : BuildParam}
    (h : preconditionsHold env param = true) (choices : List Nat) (ctx : Context) :
    (CrossPlatformBuild env choices ctx param).result
        = summarize (applyDefaults param).OutputDir
            ((dispatch (dispatchConfig env (applyDefaults param)) choices).builtTargets,
              (dispatch (dispatchConfig env (applyDefaults param)) choices).failedTargets)
      ∧ (CrossPlatformBuild env choices ctx param).err = none := by
  unfold CrossPlatformBuild
  simp only [preconditionsHold, Bool.and_eq_true, Option.isNone_iff_eq_none] at h
  obtain ⟨⟨h1, h2⟩, h3⟩ := h
  simp [h1, h2, h3]

/-! ## The properties of the specification -/

/-- C1. Aggregation correctness: for every finite sequence of outcomes consumed by the
collection loop, the summary has `Success = true` exactly when `FailedTargets` is empty,
and the two lists together have as many entries as outcomes were consumed; and under
every schedule the lists the dispatch ends with are the loop's result on the outcomes it
received. -/
theorem aggregation_correct (outputDir : String) (outcomes : List buildTaskResult) :
    ((summarize outputDir (collect outcomes)).Success = true
        ↔ (summarize outputDir (collect outcomes)).FailedTargets = [])
      ∧ (summarize outputDir (collect outcomes)).BuiltTargets.length
          + (summarize outputDir (collect outcomes)).FailedTargets.length = outcomes.length
      ∧ ∀ (cfg : Config) (choices : List Nat),
          ((dispatch cfg choices).builtTargets, (dispatch cfg choices).failedTargets)
              = collect (dispatch cfg choices).received
            ∧ (dispatch cfg choices).builtTargets.length
                + (dispatch cfg choices).failedTargets.length
              = (dispatch cfg choices).received.length := by
  refine ⟨summarize_success_iff _ _, collect_length outcomes, ?_⟩
  intro cfg choices
  have h := (inv_dispatch cfg choices).lists
  refine ⟨h, ?_⟩
  have h2 := collect_length (dispatch cfg choices).received
  rw [← h] at h2
  exact h2

/-- C2. Exactly one outcome per target: for every target list, every concurrency limit
`c ≥ 1`, every invoker and every schedule, the dispatch returns without a panic, with an
empty channel, having received exactly `|T|` outcomes whose targets are a permutation of
`T` and which are, up to order, the outcomes of the tasks; the same holds of every
execution of the transition system that has returned. -/
theorem one_outcome_per_target (cfg : Config) (choices : List Nat) (hjobs : 1 ≤ cfg.jobs) :
    (dispatch cfg choices).main = MainPc.returned
      ∧ (dispatch cfg choices).panicked = false
      ∧ (dispatch cfg choices).results = []
      ∧ (dispatch cfg choices).received.length = cfg.targets.length
      ∧ List.Perm ((dispatch cfg choices).received.map (fun r => r.target)) cfg.targets
      ∧ List.Perm (dispatch cfg choices).received (expectedOutcomes cfg)
      ∧ ∀ (es : List Event) (s : DState), exec cfg es (DState.init cfg) = some s →
          s.main = MainPc.returned →
          s.received.length = cfg.targets.length
            ∧ List.Perm (s.received.map (fun r => r.target)) cfg.targets
            ∧ List.Perm s.received (expectedOutcomes cfg) := by
  have key : ∀ s : DState, Inv cfg s → s.main = MainPc.returned →
      s.received.length = cfg.targets.length
        ∧ List.Perm (s.received.map (fun r => r.target)) cfg.targets
        ∧ List.Perm s.received (expectedOutcomes cfg) := by
    intro s inv hmain
    have hperm := (final_state inv hmain).2.2.2.2.2.2
    refine ⟨?_, ?_, hperm⟩
    · rw [hperm.length_eq, expectedOutcomes_length]
    · have := hperm.map (fun r => r.target)
      rwa [expectedOutcomes_targets] at this
  obtain ⟨inv, hmain⟩ := dispatch_returns hjobs choices
  obtain ⟨h1, h2, h3⟩ := key _ inv hmain
  refine ⟨hmain, inv.noPanic, (final_state inv hmain).2.1, h1, h2, h3, ?_⟩
  intro es s hes hm
  exact key s (inv_exec es (inv_init cfg) hes) hm

/-- C2, at the scenario of the specification under one interleaving. -/
theorem one_outcome_per_target_witness :
    1 ≤ scenarioConfig.jobs
      ∧ (dispatch scenarioConfig [0, 0, 0, 1, 1, 1]).received.length = 2
      ∧ (dispatch scenarioConfig [0, 0, 0, 1, 1, 1]).received.map (fun r => r.target.Name)
          = ["Windows x64", "Linux x64"]
      ∧ List.Perm (dispatch scenarioConfig [0, 0, 0, 1, 1, 1]).received
          (expectedOutcomes scenarioConfig) :=
  ⟨by decide, by decide, by decide,
    (one_outcome_per_target scenarioConfig [0, 0, 0, 1, 1, 1] (by decide)).2.2.2.2.2.1⟩

/-- C3. Outcome attribution and label format: for every target list, invoker and
schedule (with at least one admission slot), `BuiltTargets` of the summary is, up to
order, the list of `<Name>: <OutputDir joined with the derived file name>` over the
tasks whose invoker succeeded and `FailedTargets` the list of `<Name>: <diagnostic>` over
those whose invoker failed; so each submitted target contributes its own label whatever
the others do. The same holds of the summary of every execution of the transition system
that has returned, of the result `CrossPlatformBuild` returns when its preconditions
hold, and of the two lists of the collection loop. In the scenario of the specification
every schedule gives the summary built = [Linux x64: bin/app_linux_amd64],
failed = [Windows x64: exit status 1], success = false. -/
theorem outcome_attribution (cfg : Config) (choices : List Nat) (hjobs : 1 ≤ cfg.jobs) :
    List.Perm (dispatchSummary cfg choices).BuiltTargets
        (((expectedOutcomes cfg).filter (fun r => r.success)).map builtLabel)
      ∧ List.Perm (dispatchSummary cfg choices).FailedTargets
        (((expectedOutcomes cfg).filter (fun r => !r.success)).map failedLabel)
      ∧ (∀ (i : Nat) (t : BuildTarget), cfg.targets[i]? = some t →
          (cfg.compile i t cfg.sourceFile (filepathJoin [cfg.outputDir, outputName cfg.appName t])
              = none →
            t.Name ++ ": " ++ filepathJoin [cfg.outputDir, outputName cfg.appName t]
              ∈ (dispatchSummary cfg choices).BuiltTargets)
          ∧ ∀ d : String,
            cfg.compile i t cfg.sourceFile (filepathJoin [cfg.outputDir, outputName cfg.appName t])
              = some d →
            t.Name ++ ": " ++ d ∈ (dispatchSummary cfg choices).FailedTargets)
      ∧ (∀ (es : List Event) (s : DState), exec cfg es (DState.init cfg) = some s →
          s.main = MainPc.returned →
          List.Perm (summarize cfg.outputDir (s.builtTargets, s.failedTargets)).BuiltTargets
              (((expectedOutcomes cfg).filter (fun r => r.success)).map builtLabel)
            ∧ List.Perm
              (summarize cfg.outputDir (s.builtTargets, s.failedTargets)).FailedTargets
              (((expectedOutcomes cfg).filter (fun r => !r.success)).map failedLabel))
      ∧ (∀ (env : Env) (schedule : List Nat) (ctx : Context) (param : BuildParam),
          preconditionsHold env param = true →
          List.Perm (CrossPlatformBuild env schedule ctx param).result.BuiltTargets
              (((expectedOutcomes (dispatchConfig env (applyDefaults param))).filter
                (fun r => r.success)).map builtLabel)
            ∧ List.Perm (CrossPlatformBuild env schedule ctx param).result.FailedTargets
              (((expectedOutcomes (dispatchConfig env (applyDefaults param))).filter
                (fun r => !r.success)).map failedLabel))
      ∧ List.Perm (dispatch cfg choices).builtTargets
        (((expectedOutcomes cfg).filter (fun r => r.success)).map builtLabel)
      ∧ List.Perm (dispatch cfg choices).failedTargets
        (((expectedOutcomes cfg).filter (fun r => !r.success)).map failedLabel)
      ∧ ∀ schedule : List Nat,
          dispatchSummary scenarioConfig schedule
              = { Success := false
                  BuiltTargets := ["Linux x64: bin/app_linux_amd64"]
                  FailedTargets := ["Windows x64: exit status 1"]
                  OutputDir := "bin" }
            ∧ (dispatch scenarioConfig schedule).builtTargets
              = ["Linux x64: bin/app_linux_amd64"]
            ∧ (dispatch scenarioConfig schedule).failedTargets
              = ["Windows x64: exit status 1"] := by
  have key0 : ∀ (c : Config) (s : DState), Inv c s → s.main = MainPc.returned →
      List.Perm s.builtTargets
          (((expectedOutcomes c).filter (fun r => r.success)).map builtLabel)
        ∧ List.Perm s.failedTargets
          (((expectedOutcomes c).filter (fun r => !r.success)).map failedLabel) := by
    intro c s inv hmain
    have hperm := (final_state inv hmain).2.2.2.2.2.2
    obtain ⟨hb, hf⟩ := lists_eq_collect inv
    rw [hb, hf]
    exact ⟨(hperm.filter _).map _, (hperm.filter _).map _⟩
  have key : ∀ (c : Config) (ch : List Nat), 1 ≤ c.jobs →
      List.Perm (dispatch c ch).builtTargets
          (((expectedOutcomes c).filter (fun r => r.success)).map builtLabel)
        ∧ List.Perm (dispatch c ch).failedTargets
          (((expectedOutcomes c).filter (fun r => !r.success)).map failedLabel) := by
    intro c ch hc
    obtain ⟨inv, hmain⟩ := dispatch_returns hc ch
    exact key0 c _ inv hmain
  obtain ⟨hb, hf⟩ := key cfg choices hjobs
  have hsb : (dispatchSummary cfg choices).BuiltTargets = (dispatch cfg choices).builtTargets :=
    rfl
  have hsf : (dispatchSummary cfg choices).FailedTargets
      = (dispatch cfg choices).failedTargets := rfl
  refine ⟨by rw [hsb]; exact hb, by rw [hsf]; exact hf, ?_, ?_, ?_, hb, hf, ?_⟩
  · intro i t ht
    have hmem : expectedOutcome cfg i t ∈ expectedOutcomes cfg := by
      rw [expectedOutcomes, List.mem_iff_getElem?]
      exact ⟨i, by rw [List.getElem?_mapIdx, ht]; rfl⟩
    constructor
    · intro hnone
      rw [hsb, hb.mem_iff]
      refine List.mem_map.mpr ⟨expectedOutcome cfg i t, List.mem_filter.mpr ⟨hmem, ?_⟩, rfl⟩
      simp [expectedOutcome, taskResult, outputPath, hnone]
    · intro d hd
      rw [hsf, hf.mem_iff]
      refine List.mem_map.mpr ⟨expectedOutcome cfg i t, List.mem_filter.mpr ⟨hmem, ?_⟩, ?_⟩
      · simp [expectedOutcome, taskResult, outputPath, hd]
      · simp [failedLabel, expectedOutcome, taskResult, outputPath, hd, fmtError]
  · intro es s hes hm
    exact key0 cfg s (inv_exec es (inv_init cfg) hes) hm
  · intro env schedule ctx param hpre
    obtain ⟨hr, _⟩ := build_preconditions_hold hpre schedule ctx
    rw [hr]
    exact key (dispatchConfig env (applyDefaults param)) schedule
      (dispatchConfig_jobs env param).2.1
  · intro schedule
    obtain ⟨hb2, hf2⟩ := key scenarioConfig schedule (by decide)
    have e1 : ((expectedOutcomes scenarioConfig).filter (fun r => r.success)).map builtLabel
        = ["Linux x64: bin/app_linux_amd64"] := by decide
    have e2 : ((expectedOutcomes scenarioConfig).filter (fun r => !r.success)).map failedLabel
        = ["Windows x64: exit status 1"] := by decide
    rw [e1] at hb2
    rw [e2] at hf2
    have hb3 := List.perm_singleton.mp hb2
    have hf3 := List.perm_singleton.mp hf2
    refine ⟨?_, hb3, hf3⟩
    unfold dispatchSummary
    rw [hb3, hf3]
    rfl

/-- C3, at the scenario of the specification: the invoker succeeds for linux and fails
for windows with `exit status 1`; and `CrossPlatformBuild` on a host where the windows
build fails so, whose `compileTarget` adds the captured output to the diagnostic. -/
theorem outcome_attribution_witness :
    1 ≤ scenarioConfig.jobs
      ∧ dispatchSummary scenarioConfig [0, 0, 0, 1, 1]
          = { Success := false
              BuiltTargets := ["Linux x64: bin/app_linux_amd64"]
              FailedTargets := ["Windows x64: exit status 1"]
              OutputDir := "bin" }
      ∧ (CrossPlatformBuild scenarioEnv [0, 0, 0, 1, 1] { cancelledAfter := none }
          scenarioParam).result
          = { Success := false
              BuiltTargets := ["Linux x64: bin/app_linux_amd64"]
              FailedTargets := ["Windows x64: exit status 1\nOutput: "]
              OutputDir := "bin" } :=
  ⟨by decide,
    ((outcome_attribution scenarioConfig [] (by decide)).2.2.2.2.2.2.2 [0, 0, 0, 1, 1]).1,
    by decide⟩

theorem admitted_can_step {cfg : Config} {s : DState} {i : Nat} {w : Worker} (inv : Inv cfg s)
    (hw : s.workers[i]? = some w) (h1 : w.pc ≠ WorkerPc.acquire)
    (h2 : w.pc ≠ WorkerPc.finished) : (step cfg s (Event.worker i)).isSome = true := by
  have hp := inv.noPanic
  obtain ⟨l1, l2, hws, hlen, hset⟩ := set_decomp hw
  have hsem := inv.sem
  have hwg := inv.wg
  have hsent := inv.sent.length_eq
  have htargets := congrArg List.length inv.targets
  simp only [holders, unfinished, sentResults, hws, List.countP_append, List.countP_cons,
    List.filter_append, List.filter_cons, List.map_append, List.map_cons, List.length_append,
    List.length_map] at hsem hwg hsent htargets
  simp only [step, hp, Bool.false_eq_true, if_false]
  rcases hpc : w.pc with _ | _ | _ | _ | _ | _
  · exact absurd hpc h1
  · simp [stepWorker, hw, hpc]
  · have e1 : WorkerPc.send.hasSent = false := rfl
    have e2 : (WorkerPc.send != WorkerPc.finished) = true := rfl
    simp only [hpc, e1, e2, if_true, Bool.false_eq_true, if_false, List.length_append,
      List.length_map, List.length_cons] at hwg hsent htargets
    have hnc : s.closed = false := by
      cases hc : s.closed
      · rfl
      · have h0 := inv.closerPast (Or.inr (inv.closedIff.mp hc))
        omega
    have hlt : s.results.length < cfg.targets.length := by
      have a1 := List.length_filter_le (fun w => w.pc.hasSent) l1
      have a2 := List.length_filter_le (fun w => w.pc.hasSent) l2
      omega
    simp [stepWorker, hw, hpc, hnc, hlt]
  · have e1 : WorkerPc.release.holdsSlot = true := rfl
    simp only [hpc, e1, if_true] at hsem
    have hpos : 0 < s.semaphore := by
      omega
    simp [stepWorker, hw, hpc, hpos]
  · simp only [stepWorker, hw, hpc]
    split <;> simp
  · exact absurd hpc h2

theorem compiling_le_holders (s : DState) : compiling s ≤ holders s := by
  unfold compiling holders
  apply List.countP_mono_left
  intro w _ hw
  have : w.pc = WorkerPc.compile := by simpa using hw
  simp [this, WorkerPc.holdsSlot]

/-- What the next step of an admitted task does: with `compileTarget` returned it goes
on to the send, keeping its slot; the send appends its outcome and is followed by the
release; the release takes one token out of the semaphore. None of them is blocked. -/
theorem admitted_step_effect {cfg : Config} {s : DState} {i : Nat} {w : Worker}
    (inv : Inv cfg s) (hw : s.workers[i]? = some w) :
    (w.pc = WorkerPc.compile → ∃ s1, step cfg s (Event.worker i) = some s1
        ∧ s1.workers[i]? = some
            { t := w.t, pc := WorkerPc.send,
              err := cfg.compile i w.t cfg.sourceFile
                (outputPath cfg.outputDir cfg.appName w.t) }
        ∧ s1.semaphore = s.semaphore)
      ∧ (w.pc = WorkerPc.send → ∃ s1, step cfg s (Event.worker i) = some s1
        ∧ s1.workers[i]? = some { t := w.t, pc := WorkerPc.release, err := w.err }
        ∧ s1.results = s.results ++ [taskResult cfg w]
        ∧ s1.semaphore = s.semaphore)
      ∧ (w.pc = WorkerPc.release → ∃ s1, step cfg s (Event.worker i) = some s1
        ∧ s1.workers[i]? = some { t := w.t, pc := WorkerPc.wgDone, err := w.err }
        ∧ s1.semaphore + 1 = s.semaphore) := by
  have hp := inv.noPanic
  have hi : i < s.workers.length := (List.getElem?_eq_some.mp hw).1
  obtain ⟨l1, l2, hws, hlen, hset⟩ := set_decomp hw
  have hsem := inv.sem
  have hwg := inv.wg
  have hsent := inv.sent.length_eq
  have htargets := congrArg List.length inv.targets
  simp only [holders, unfinished, sentResults, hws, List.countP_append, List.countP_cons,
    List.filter_append, List.filter_cons, List.map_append, List.map_cons, List.length_append,
    List.length_map] at hsem hwg hsent htargets
  refine ⟨?_, ?_, ?_⟩
  · intro hpc
    refine ⟨{ s with
        workers := s.workers.set i
          { w with pc := WorkerPc.send,
                   err := cfg.compile i w.t cfg.sourceFile
                    (outputPath cfg.outputDir cfg.appName w.t) }
        calls := s.calls ++ [Call.compileTarget w.t cfg.sourceFile
          (outputPath cfg.outputDir cfg.appName w.t)] }, ?_, ?_, rfl⟩
    · simp [step, hp, stepWorker, hw, hpc]
    · simp [List.getElem?_set, hi]
  · intro hpc
    have e1 : WorkerPc.send.hasSent = false := rfl
    have e2 : (WorkerPc.send != WorkerPc.finished) = true := rfl
    simp only [hpc, e1, e2, if_true, Bool.false_eq_true, if_false, List.length_append,
      List.length_map, List.length_cons] at hwg hsent htargets
    have hnc : s.closed = false := by
      cases hc : s.closed
      · rfl
      · have h0 := inv.closerPast (Or.inr (inv.closedIff.mp hc))
        omega
    have hlt : s.results.length < cfg.targets.length := by
      have a1 := List.length_filter_le (fun w => w.pc.hasSent) l1
      have a2 := List.length_filter_le (fun w => w.pc.hasSent) l2
      omega
    refine ⟨{ s with
        results := s.results ++ [taskResult cfg w]
        workers := s.workers.set i { w with pc := WorkerPc.release } }, ?_, ?_, rfl, rfl⟩
    · simp [step, hp, stepWorker, hw, hpc, hnc, hlt]
    · simp [List.getElem?_set, hi]
  · intro hpc
    have e1 : WorkerPc.release.holdsSlot = true := rfl
    simp only [hpc, e1, if_true] at hsem
    have hpos : 0 < s.semaphore := by omega
    refine ⟨{ s with
        semaphore := s.semaphore - 1
        workers := s.workers.set i { w with pc := WorkerPc.wgDone } }, ?_, ?_, ?_⟩
    · simp [step, hp, stepWorker, hw, hpc, hpos]
    · simp [List.getElem?_set, hi]
    · show s.semaphore - 1 + 1 = s.semaphore
      omega

/-- C10. At-most-c: in every state an execution of the dispatch goes through, the tasks
holding an admission slot are exactly the tokens in the semaphore and at most `c`, so at
most `c` tasks are inside `compileTarget`. A task holds a slot from its acquire on; once
`compileTarget` has returned, with an error or without, its next steps are the send of
its outcome and then the release, which takes its token out of the semaphore, and none
of these steps is ever blocked. With `c ≥ 1`, however the goroutines are scheduled from
that state on, the dispatch returns with every task finished and every slot released. -/
theorem at_most_jobs_compiling (cfg : Config) (es : List Event) (s : DState)
    (h : exec cfg es (DState.init cfg) = some s) :
    compiling s ≤ cfg.jobs
      ∧ compiling s ≤ holders s
      ∧ s.semaphore = holders s
      ∧ s.semaphore ≤ cfg.jobs
      ∧ (∀ (i : Nat) (w : Worker), s.workers[i]? = some w → w.pc ≠ WorkerPc.acquire →
          w.pc ≠ WorkerPc.finished → (step cfg s (Event.worker i)).isSome = true)
      ∧ (s.main = MainPc.returned → s.semaphore = 0)
      ∧ (∀ (i : Nat) (w : Worker), s.workers[i]? = some w → w.pc = WorkerPc.compile →
          ∃ s1, step cfg s (Event.worker i) = some s1
            ∧ s1.workers[i]? = some
                { t := w.t, pc := WorkerPc.send,
                  err := cfg.compile i w.t cfg.sourceFile
                    (outputPath cfg.outputDir cfg.appName w.t) }
            ∧ s1.semaphore = s.semaphore)
      ∧ (∀ (i : Nat) (w : Worker), s.workers[i]? = some w → w.pc = WorkerPc.send →
          ∃ s1, step cfg s (Event.worker i) = some s1
            ∧ s1.workers[i]? = some { t := w.t, pc := WorkerPc.release, err := w.err }
            ∧ s1.results = s.results ++ [taskResult cfg w]
            ∧ s1.semaphore = s.semaphore)
      ∧ (∀ (i : Nat) (w : Worker), s.workers[i]? = some w → w.pc = WorkerPc.release →
          ∃ s1, step cfg s (Event.worker i) = some s1
            ∧ s1.workers[i]? = some { t := w.t, pc := WorkerPc.wgDone, err := w.err }
            ∧ s1.semaphore + 1 = s.semaphore)
      ∧ (1 ≤ cfg.jobs → ∀ choices : List Nat,
          (run cfg s.measure choices s).main = MainPc.returned
            ∧ (run cfg s.measure choices s).semaphore = 0
            ∧ holders (run cfg s.measure choices s) = 0
            ∧ ∀ w ∈ (run cfg s.measure choices s).workers, w.pc = WorkerPc.finished) := by
  have inv := inv_exec es (inv_init cfg) h
  have h1 := compiling_le_holders s
  have h2 := inv.sem
  have h3 := inv.semLe
  refine ⟨by omega, h1, h2, h3, ?_, ?_, ?_, ?_, ?_, ?_⟩
  · intro i w hw ha hf
    exact admitted_can_step inv hw ha hf
  · intro hm
    exact (final_state inv hm).2.2.1
  · intro i w hw hpc
    exact (admitted_step_effect inv hw).1 hpc
  · intro i w hw hpc
    exact (admitted_step_effect inv hw).2.1 hpc
  · intro i w hw hpc
    exact (admitted_step_effect inv hw).2.2 hpc
  · intro hjobs choices
    obtain ⟨inv1, hmain⟩ := run_returns hjobs s.measure choices s inv (Nat.le_refl _)
    have hf := final_state inv1 hmain
    refine ⟨hmain, hf.2.2.1, ?_, hf.2.2.2.1⟩
    rw [← inv1.sem]
    exact hf.2.2.1

/-- C10, at the scenario of the specification: both tasks admitted, both compiling, and
the bound of two is reached; from there the run ends with both slots released. -/
theorem at_most_jobs_compiling_witness :
    exec scenarioConfig [Event.main, Event.main, Event.main, Event.worker 1, Event.worker 0]
        (DState.init scenarioConfig)
        = some (run scenarioConfig 5 [0, 0, 0, 1, 0] (DState.init scenarioConfig))
      ∧ compiling (run scenarioConfig 5 [0, 0, 0, 1, 0] (DState.init scenarioConfig)) = 2
      ∧ (run scenarioConfig 5 [0, 0, 0, 1, 0] (DState.init scenarioConfig)).semaphore = 2
      ∧ compiling (run scenarioConfig 5 [0, 0, 0, 1, 0] (DState.init scenarioConfig))
          ≤ scenarioConfig.jobs
      ∧ (run scenarioConfig
            (run scenarioConfig 5 [0, 0, 0, 1, 0] (DState.init scenarioConfig)).measure [1, 0, 1]
            (run scenarioConfig 5 [0, 0, 0, 1, 0] (DState.init scenarioConfig))).semaphore = 0 :=
  ⟨by decide, by decide, by decide,
    (at_most_jobs_compiling scenarioConfig
      [Event.main, Event.main, Event.main, Event.worker 1, Event.worker 0]
      (run scenarioConfig 5 [0, 0, 0, 1, 0] (DState.init scenarioConfig)) (by decide)).1,
    ((at_most_jobs_compiling scenarioConfig
      [Event.main, Event.main, Event.main, Event.worker 1, Event.worker 0]
      (run scenarioConfig 5 [0, 0, 0, 1, 0] (DState.init scenarioConfig))
      (by decide)).2.2.2.2.2.2.2.2.2 (by decide) [1, 0, 1]).2.1⟩

/-- C7 as stated fails: a source path under a regular file does not exist, `os.Stat`
fails on it with `ENOTDIR`, which `fileExists` takes for an existing file, and the run
goes on to the toolchain lookup, the directory creation and one `compileTarget` per
target. -/
theorem precondition_short_circuit_fails :
    (underFileEnv.stat
        (if underFileParam.SourceFile = "" then "./main.go"
          else underFileParam.SourceFile)).pathAbsent = true
      ∧ fileExists underFileEnv "main.go/x.go" = true
      ∧ (CrossPlatformBuild underFileEnv [] { cancelledAfter := none } underFileParam).calls
          = [Call.stat "main.go/x.go", Call.lookPath "go", Call.mkdirAll "bin",
              Call.compileTarget { GOOS := "linux", GOARCH := "amd64", Name := "Linux x64" }
                "main.go/x.go" "bin/app_linux_amd64",
              Call.compileTarget
                { GOOS := "windows", GOARCH := "amd64", Name := "Windows x64" }
                "main.go/x.go" "bin/app_windows_amd64.exe"]
      ∧ (CrossPlatformBuild underFileEnv [] { cancelledAfter := none } underFileParam).calls
          ≠ [Call.stat "main.go/x.go"] := by
  decide

/-- C7, amended. Precondition short-circuit: when `os.Stat` reports that the source path,
after an empty one has become `./main.go`, does not exist (an error `os.IsNotExist`
accepts), the summary is `Success = false` with no built (and no failed) targets, the Go
error is nil, and the only call made is the `os.Stat` of the source path: no toolchain
lookup, no directory creation, no `compileTarget`. -/
theorem precondition_short_circuit (env : Env) (choices : List Nat) (ctx : Context)
    (param : BuildParam)
    (h : env.stat (if param.SourceFile = "" then "./main.go" else param.SourceFile)
      = StatResult.notExist) :
    (CrossPlatformBuild env choices ctx param).result.Success = false
      ∧ (CrossPlatformBuild env choices ctx param).result.BuiltTargets = []
      ∧ (CrossPlatformBuild env choices ctx param).result.FailedTargets = []
      ∧ (CrossPlatformBuild env choices ctx param).err = none
      ∧ (CrossPlatformBuild env choices ctx param).calls
          = [Call.stat (if param.SourceFile = "" then "./main.go" else param.SourceFile)] := by
  rw [← applyDefaults_sourceFile] at h ⊢
  have hf : fileExists env (applyDefaults param).SourceFile = false := by
    simp [fileExists, h]
  simp [CrossPlatformBuild, hf, preconditionFailure]

/-- C7, amended, on a host where no file exists, for the request with every field
empty. -/
theorem precondition_short_circuit_witness :
    emptyEnv.stat (if zeroParam.SourceFile = "" then "./main.go" else zeroParam.SourceFile)
        = StatResult.notExist
      ∧ (CrossPlatformBuild emptyEnv [] { cancelledAfter := none } zeroParam).result.Success
          = false
      ∧ (CrossPlatformBuild emptyEnv [] { cancelledAfter := none } zeroParam).calls
          = [Call.stat "./main.go"] :=
  ⟨by decide,
    (precondition_short_circuit emptyEnv [] { cancelledAfter := none } zeroParam
      (by decide)).1,
    by decide⟩

/-- C9 as stated fails: on a host where every build succeeds, the signal raised after
four steps of the dispatch, when one task is inside `compileTarget`, changes nothing:
the run returns what the uncancelled run returns, with no failed target. -/
theorem cancellation_fails :
    compiling (run (dispatchConfig goodEnv (applyDefaults zeroParam)) 4 []
        (DState.init (dispatchConfig goodEnv (applyDefaults zeroParam)))) = 1
      ∧ CrossPlatformBuild goodEnv [] { cancelledAfter := some 4 } zeroParam
          = CrossPlatformBuild goodEnv [] { cancelledAfter := none } zeroParam
      ∧ (CrossPlatformBuild goodEnv [] { cancelledAfter := some 4 } zeroParam).result.Success
          = true
      ∧ (CrossPlatformBuild goodEnv [] { cancelledAfter := some 4 } zeroParam).result.FailedTargets
          = [] := by
  refine ⟨by decide, rfl, by decide, by decide⟩

/-- C9, amended. `CrossPlatformBuild` accepts the cancellation signal and does not
consult it: for every host, schedule and request, what it returns (text, summary, error,
calls made) is the same whether and whenever the signal is raised. -/
theorem cancellation_not_observed (env : Env) (choices : List Nat) (ctx1 ctx2 : Context)
    (param : BuildParam) :
    CrossPlatformBuild env choices ctx1 param = CrossPlatformBuild env choices ctx2 param :=
  rfl


/-! ### `filepath.Clean` keeps a last path element as it is -/

theorem closed_tail {c : Char} {pre : List Char} (h : Closed (c :: pre)) : Closed pre := by
  cases pre with
  | nil => intro x hx; simp at hx
  | cons d pre1 =>
    intro x hx
    exact h x (by rw [List.getLast?_cons_cons]; exact hx)

theorem closed_ne_nil {c : Char} {pre : List Char} (h : Closed (c :: pre))
    (hc : isPathSeparator c = false) : pre ≠ [] := by
  intro hnil
  subst hnil
  have := h c (by simp)
  rw [hc] at this
  cases this

theorem closed_dropWhile (p : Char → Bool) {pre : List Char} (h : Closed pre) :
    Closed (pre.dropWhile p) := by
  induction pre with
  | nil => simpa using h
  | cons c pre ih =>
    rw [List.dropWhile_cons]
    split
    · exact ih (closed_tail h)
    · exact h

theorem closed_has_sep {pre : List Char} (h : Closed pre) (hne : pre ≠ []) :
    ∃ x ∈ pre, isPathSeparator x = true := by
  rcases hl : pre.getLast? with _ | x
  · simp at hl
    exact absurd hl hne
  · exact ⟨x, List.mem_of_getLast?_eq_some hl, h x hl⟩

theorem takeWhile_append_of_stop (p : Char → Bool) {pre : List Char} (e : List Char)
    (h : ∃ x ∈ pre, p x = false) :
    (pre ++ e).takeWhile p = pre.takeWhile p
      ∧ (pre ++ e).dropWhile p = pre.dropWhile p ++ e := by
  induction pre with
  | nil => simp at h
  | cons c pre ih =>
    by_cases hc : p c = true
    · have h2 : ∃ x ∈ pre, p x = false := by
        obtain ⟨x, hx, hpx⟩ := h
        rcases List.mem_cons.mp hx with rfl | hx
        · rw [hc] at hpx; cases hpx
        · exact ⟨x, hx, hpx⟩
      obtain ⟨i1, i2⟩ := ih h2
      simp [List.takeWhile_cons, List.dropWhile_cons, hc, i1, i2]
    · simp [List.takeWhile_cons, List.dropWhile_cons, hc]

theorem cleanLoop_nil (rooted : Bool) (fuel : Nat) (out : List Char) (dotdot : Nat) :
    cleanLoop rooted fuel [] out dotdot = out := by
  cases fuel <;> rfl

theorem cleanLoop_cons (rooted : Bool) (fuel : Nat) (c : Char) (rest out : List Char)
    (dotdot : Nat) :
    cleanLoop rooted (fuel + 1) (c :: rest) out dotdot =
      if isPathSeparator c then
        cleanLoop rooted fuel rest out dotdot
      else if c = '.' ∧ (rest = [] ∨ startsWithSep rest = true) then
        cleanLoop rooted fuel rest out dotdot
      else if c = '.' ∧ rest.head? = some '.' ∧
          (rest.tail = [] ∨ startsWithSep rest.tail = true) then
        if out.length > dotdot then
          cleanLoop rooted fuel rest.tail (backtrack dotdot out) dotdot
        else if !rooted then
          cleanLoop rooted fuel rest.tail
            ((if out.length > 0 then out ++ ['/'] else out) ++ ['.', '.'])
            ((if out.length > 0 then out ++ ['/'] else out) ++ ['.', '.']).length
        else
          cleanLoop rooted fuel rest.tail out dotdot
      else
        cleanLoop rooted fuel ((c :: rest).dropWhile (fun x => !isPathSeparator x))
          ((if (rooted && out.length != 1) || (!rooted && out.length != 0) then out ++ ['/']
            else out) ++ (c :: rest).takeWhile (fun x => !isPathSeparator x)) dotdot := by
  rfl

theorem cleanLoop_append (rooted : Bool) :
    ∀ (fuel : Nat) (pre elem out : List Char) (dotdot : Nat), Closed pre → RealElem elem →
      (pre ++ elem).length ≤ fuel →
      cleanLoop rooted fuel (pre ++ elem) out dotdot =
        (if (rooted && (cleanLoop rooted fuel pre out dotdot).length != 1)
              || (!rooted && (cleanLoop rooted fuel pre out dotdot).length != 0)
          then cleanLoop rooted fuel pre out dotdot ++ ['/']
          else cleanLoop rooted fuel pre out dotdot) ++ elem := by
  intro fuel
  induction fuel with
  | zero =>
    intro pre elem out dotdot hcl hreal hlen
    have h0 : (pre ++ elem).length = 0 := by omega
    have h1 : elem = [] := by
      simp at h0
      exact h0.2
    exact absurd h1 hreal.2.1
  | succ fuel ih =>
    intro pre elem out dotdot hcl hreal hlen
    obtain ⟨hns, hne, hd1, hd2⟩ := hreal
    cases pre with
    | nil =>
      rw [List.nil_append, cleanLoop_nil]
      obtain ⟨c, rest, rfl⟩ := List.exists_cons_of_ne_nil hne
      have hc : isPathSeparator c = false := hns c (by simp)
      have hrest : ∀ x ∈ rest, isPathSeparator x = false :=
        fun x hx => hns x (by simp [hx])
      have h2 : ¬ (c = '.' ∧ (rest = [] ∨ startsWithSep rest = true)) := by
        rintro ⟨rfl, h | h⟩
        · subst h; exact hd1 rfl
        · cases rest with
          | nil => simp [startsWithSep] at h
          | cons d rest1 =>
            simp only [startsWithSep] at h
            have := hrest d (by simp)
            rw [h] at this; cases this
      have h3 : ¬ (c = '.' ∧ rest.head? = some '.' ∧
          (rest.tail = [] ∨ startsWithSep rest.tail = true)) := by
        rintro ⟨rfl, hh, h⟩
        cases rest with
        | nil => simp at hh
        | cons d rest1 =>
          simp only [List.head?_cons, Option.some.injEq] at hh
          subst hh
          rcases h with h | h
          · simp only [List.tail_cons] at h
            subst h; exact hd2 rfl
          · cases rest1 with
            | nil => simp [startsWithSep] at h
            | cons f rest2 =>
              simp only [List.tail_cons, startsWithSep] at h
              have := hrest f (by simp)
              rw [h] at this; cases this
      rw [cleanLoop_cons]
      simp only [hc, Bool.false_eq_true, if_false, h2, h3]
      have htake : (c :: rest).takeWhile (fun x => !isPathSeparator x) = c :: rest := by
        rw [List.takeWhile_eq_self_iff]; intro x hx; simp [hns x hx]
      have hdrop : (c :: rest).dropWhile (fun x => !isPathSeparator x) = [] := by
        rw [List.dropWhile_eq_nil_iff]; intro x hx; simp [hns x hx]
      rw [htake, hdrop, cleanLoop_nil]
    | cons c pre1 =>
      have hreal : RealElem elem := ⟨hns, hne, hd1, hd2⟩
      have hlen1 : (pre1 ++ elem).length ≤ fuel := by
        simp only [List.cons_append, List.length_cons] at hlen
        omega
      rw [List.cons_append, cleanLoop_cons, cleanLoop_cons]
      by_cases hc : isPathSeparator c = true
      · simp only [hc, if_true]
        exact ih pre1 elem out dotdot (closed_tail hcl) hreal hlen1
      · have hcf : isPathSeparator c = false := by simpa using hc
        obtain ⟨d, pre2, rfl⟩ := List.exists_cons_of_ne_nil (closed_ne_nil hcl hcf)
        have hcl1 : Closed (d :: pre2) := closed_tail hcl
        have hlen2 : (pre2 ++ elem).length ≤ fuel := by
          simp only [List.cons_append, List.length_cons] at hlen1
          omega
        simp only [hcf, Bool.false_eq_true, if_false]
        by_cases h2 : c = '.' ∧ isPathSeparator d = true
        · have a1 : c = '.' ∧ (d :: pre2 ++ elem = [] ∨ startsWithSep (d :: pre2 ++ elem) = true) :=
            ⟨h2.1, Or.inr h2.2⟩
          have a2 : c = '.' ∧ (d :: pre2 = [] ∨ startsWithSep (d :: pre2) = true) :=
            ⟨h2.1, Or.inr h2.2⟩
          rw [if_pos a1, if_pos a2]
          exact ih (d :: pre2) elem out dotdot hcl1 hreal hlen1
        · have a1 : ¬ (c = '.' ∧
              (d :: pre2 ++ elem = [] ∨ startsWithSep (d :: pre2 ++ elem) = true)) := by
            rintro ⟨hc1, h | h⟩
            · cases h
            · exact h2 ⟨hc1, h⟩
          have a2 : ¬ (c = '.' ∧ (d :: pre2 = [] ∨ startsWithSep (d :: pre2) = true)) := by
            rintro ⟨hc1, h | h⟩
            · cases h
            · exact h2 ⟨hc1, h⟩
          rw [if_neg a1, if_neg a2]
          -- the step taken for a real path element
          have hdefault : ∀ o1 : List Char,
              cleanLoop rooted fuel
                  ((c :: (d :: pre2 ++ elem)).dropWhile (fun x => !isPathSeparator x))
                  (o1 ++ (c :: (d :: pre2 ++ elem)).takeWhile (fun x => !isPathSeparator x))
                  dotdot
                = (if (rooted && (cleanLoop rooted fuel
                          ((c :: d :: pre2).dropWhile (fun x => !isPathSeparator x))
                          (o1 ++ (c :: d :: pre2).takeWhile (fun x => !isPathSeparator x))
                          dotdot).length != 1)
                      || (!rooted && (cleanLoop rooted fuel
                          ((c :: d :: pre2).dropWhile (fun x => !isPathSeparator x))
                          (o1 ++ (c :: d :: pre2).takeWhile (fun x => !isPathSeparator x))
                          dotdot).length != 0)
                    then cleanLoop rooted fuel
                          ((c :: d :: pre2).dropWhile (fun x => !isPathSeparator x))
                          (o1 ++ (c :: d :: pre2).takeWhile (fun x => !isPathSeparator x))
                          dotdot ++ ['/']
                    else cleanLoop rooted fuel
                          ((c :: d :: pre2).dropWhile (fun x => !isPathSeparator x))
                          (o1 ++ (c :: d :: pre2).takeWhile (fun x => !isPathSeparator x))
                          dotdot) ++ elem := by
            intro o1
            have hsep : ∃ x ∈ c :: d :: pre2, (fun x => !isPathSeparator x) x = false := by
              obtain ⟨x, hx, hpx⟩ := closed_has_sep hcl (by simp)
              exact ⟨x, hx, by simp [hpx]⟩
            obtain ⟨t1, t2⟩ :=
              takeWhile_append_of_stop (fun x => !isPathSeparator x) elem hsep
            have e : c :: (d :: pre2 ++ elem) = (c :: d :: pre2) ++ elem := rfl
            rw [e, t1, t2]
            refine ih _ elem _ dotdot (closed_dropWhile _ hcl) hreal ?_
            have hd0 : (c :: d :: pre2).dropWhile (fun x => !isPathSeparator x)
                = (d :: pre2).dropWhile (fun x => !isPathSeparator x) := by
              rw [List.dropWhile_cons]
              simp [hcf]
            have hd1 := (List.dropWhile_sublist (fun x => !isPathSeparator x) (l := d :: pre2)).length_le
            rw [hd0]
            simp only [List.length_append, List.cons_append, List.length_cons] at hlen1 hd1 ⊢
            omega
          by_cases hd : c = '.' ∧ d = '.'
          · have hdf : isPathSeparator d = false := by rw [hd.2]; rfl
            obtain ⟨f, pre3, rfl⟩ := List.exists_cons_of_ne_nil (closed_ne_nil hcl1 hdf)
            have hlen3 : (f :: pre3 ++ elem).length ≤ fuel := hlen2
            by_cases hf : isPathSeparator f = true
            · have b1 : c = '.' ∧ (d :: (f :: pre3) ++ elem).head? = some '.' ∧
                  ((d :: (f :: pre3) ++ elem).tail = [] ∨
                    startsWithSep (d :: (f :: pre3) ++ elem).tail = true) :=
                ⟨hd.1, by simp [hd.2], Or.inr hf⟩
              have b2 : c = '.' ∧ (d :: f :: pre3).head? = some '.' ∧
                  ((d :: f :: pre3).tail = [] ∨ startsWithSep (d :: f :: pre3).tail = true) :=
                ⟨hd.1, by simp [hd.2], Or.inr hf⟩
              rw [if_pos b1, if_pos b2]
              have hcl2 : Closed (f :: pre3) := closed_tail hcl1
              by_cases ho : out.length > dotdot
              · simp only [if_pos ho]
                exact ih (f :: pre3) elem _ dotdot hcl2 hreal hlen3
              · simp only [if_neg ho]
                by_cases hr : (!rooted) = true
                · simp only [if_pos hr]
                  exact ih (f :: pre3) elem _ _ hcl2 hreal hlen3
                · simp only [if_neg hr]
                  exact ih (f :: pre3) elem _ dotdot hcl2 hreal hlen3
            · have b1 : ¬ (c = '.' ∧ (d :: (f :: pre3) ++ elem).head? = some '.' ∧
                  ((d :: (f :: pre3) ++ elem).tail = [] ∨
                    startsWithSep (d :: (f :: pre3) ++ elem).tail = true)) := by
                rintro ⟨_, _, h | h⟩
                · cases h
                · exact hf h
              have b2 : ¬ (c = '.' ∧ (d :: f :: pre3).head? = some '.' ∧
                  ((d :: f :: pre3).tail = [] ∨
                    startsWithSep (d :: f :: pre3).tail = true)) := by
                rintro ⟨_, _, h | h⟩
                · cases h
                · exact hf h
              rw [if_neg b1, if_neg b2]
              exact hdefault _
          · have b1 : ¬ (c = '.' ∧ (d :: pre2 ++ elem).head? = some '.' ∧
                ((d :: pre2 ++ elem).tail = [] ∨
                  startsWithSep (d :: pre2 ++ elem).tail = true)) := by
              rintro ⟨hc1, hh, _⟩
              simp only [List.cons_append, List.head?_cons, Option.some.injEq] at hh
              exact hd ⟨hc1, hh⟩
            have b2 : ¬ (c = '.' ∧ (d :: pre2).head? = some '.' ∧
                ((d :: pre2).tail = [] ∨ startsWithSep (d :: pre2).tail = true)) := by
              rintro ⟨hc1, hh, _⟩
              simp only [List.head?_cons, Option.some.injEq] at hh
              exact hd ⟨hc1, hh⟩
            rw [if_neg b1, if_neg b2]
            exact hdefault _

theorem cleanLoop_fuel (rooted : Bool) :
    ∀ (fuel1 fuel2 : Nat) (p out : List Char) (dotdot : Nat), p.length ≤ fuel1 →
      p.length ≤ fuel2 →
      cleanLoop rooted fuel1 p out dotdot = cleanLoop rooted fuel2 p out dotdot := by
  intro fuel1
  induction fuel1 with
  | zero =>
    intro fuel2 p out dotdot h1 _
    have : p = [] := List.length_eq_zero.mp (by omega)
    subst this
    rw [cleanLoop_nil, cleanLoop_nil]
  | succ fuel1 ih =>
    intro fuel2 p out dotdot h1 h2
    cases p with
    | nil => rw [cleanLoop_nil, cleanLoop_nil]
    | cons c rest =>
      obtain ⟨fuel3, rfl⟩ : ∃ n, fuel2 = n + 1 := by
        simp only [List.length_cons] at h2
        exact ⟨fuel2 - 1, by omega⟩
      simp only [List.length_cons] at h1 h2
      have e1 : ∀ o dd, cleanLoop rooted fuel1 rest o dd = cleanLoop rooted fuel3 rest o dd :=
        fun o dd => ih fuel3 rest o dd (by omega) (by omega)
      have ht : rest.tail.length ≤ rest.length := by simp
      have e2 : ∀ o dd,
          cleanLoop rooted fuel1 rest.tail o dd = cleanLoop rooted fuel3 rest.tail o dd :=
        fun o dd => ih fuel3 rest.tail o dd (by omega) (by omega)
      have hdl := (List.dropWhile_sublist (fun x => !isPathSeparator x) (l := rest)).length_le
      have e3 : ∀ o dd,
          cleanLoop rooted fuel1 (rest.dropWhile (fun x => !isPathSeparator x)) o dd
            = cleanLoop rooted fuel3 (rest.dropWhile (fun x => !isPathSeparator x)) o dd :=
        fun o dd => ih fuel3 _ o dd (by omega) (by omega)
      rw [cleanLoop_cons, cleanLoop_cons]
      by_cases hc : isPathSeparator c = true
      · simp only [hc, if_true]
        exact e1 _ _
      · have hcf : isPathSeparator c = false := by simpa using hc
        have hdw : (c :: rest).dropWhile (fun x => !isPathSeparator x)
            = rest.dropWhile (fun x => !isPathSeparator x) := by
          rw [List.dropWhile_cons]
          simp [hcf]
        simp only [hdw, e1, e2, e3]

theorem split_last_element (y : List Char) :
    ∃ pre last, y = pre ++ last ∧ Closed pre ∧ ∀ x ∈ last, isPathSeparator x = false := by
  induction y with
  | nil => exact ⟨[], [], rfl, by intro x hx; simp at hx, by simp⟩
  | cons c y ih =>
    obtain ⟨pre, last, hy, hcl, hlast⟩ := ih
    cases pre with
    | nil =>
      by_cases hc : isPathSeparator c = true
      · refine ⟨[c], last, by simp [hy], ?_, hlast⟩
        intro x hx
        simp at hx
        rw [← hx]; exact hc
      · refine ⟨[], c :: last, by simp [hy], by intro x hx; simp at hx, ?_⟩
        intro x hx
        rcases List.mem_cons.mp hx with rfl | hx
        · simpa using hc
        · exact hlast x hx
    | cons d pre1 =>
      refine ⟨c :: d :: pre1, last, by simp [hy], ?_, hlast⟩
      intro x hx
      rw [List.getLast?_cons_cons] at hx
      exact hcl x hx

/-- What `filepath.Clean` makes of a path depends on its last element only by ending in
it, when that element has no separator and a byte other than a dot. -/
theorem cleanChars_append (y : List Char) :
    ∃ h : List Char, ∀ e : List Char, (∀ x ∈ e, isPathSeparator x = false) →
      (∃ x ∈ e, x ≠ '.') → cleanChars (y ++ e) = h ++ e := by
  -- the reading position after the leading separator, if any
  obtain ⟨pre, last, hy, hcl, hlast⟩ :=
    split_last_element (y.drop (if startsWithSep y = true then 1 else 0))
  refine ⟨(if (startsWithSep y && (cleanLoop (startsWithSep y) (y.length + 1) pre
                (if startsWithSep y = true then ['/'] else [])
                (if startsWithSep y = true then 1 else 0)).length != 1)
              || (!startsWithSep y && (cleanLoop (startsWithSep y) (y.length + 1) pre
                (if startsWithSep y = true then ['/'] else [])
                (if startsWithSep y = true then 1 else 0)).length != 0)
            then cleanLoop (startsWithSep y) (y.length + 1) pre
                (if startsWithSep y = true then ['/'] else [])
                (if startsWithSep y = true then 1 else 0) ++ ['/']
            else cleanLoop (startsWithSep y) (y.length + 1) pre
                (if startsWithSep y = true then ['/'] else [])
                (if startsWithSep y = true then 1 else 0)) ++ last, ?_⟩
  intro e hns hdot
  obtain ⟨x0, hx0, hx0dot⟩ := hdot
  have hene : e ≠ [] := List.ne_nil_of_mem hx0
  have hroot : startsWithSep (y ++ e) = startsWithSep y := by
    cases y with
    | nil =>
      obtain ⟨c, rest, rfl⟩ := List.exists_cons_of_ne_nil hene
      simp [startsWithSep, hns c (by simp)]
    | cons c y1 => rfl
  have hdrop : (y ++ e).drop (if startsWithSep y = true then 1 else 0) = pre ++ (last ++ e) := by
    rw [← List.append_assoc, ← hy]
    by_cases hr : startsWithSep y = true
    · simp only [hr, if_true]
      cases y with
      | nil => simp [startsWithSep] at hr
      | cons c y1 => rfl
    · simp [hr]
  have hreal : RealElem (last ++ e) := by
    refine ⟨?_, by simp [hene], ?_, ?_⟩
    · intro x hx
      rcases List.mem_append.mp hx with hx | hx
      · exact hlast x hx
      · exact hns x hx
    · intro heq
      have hm : x0 ∈ last ++ e := List.mem_append.mpr (Or.inr hx0)
      rw [heq] at hm
      simp at hm
      exact hx0dot hm
    · intro heq
      have hm : x0 ∈ last ++ e := List.mem_append.mpr (Or.inr hx0)
      rw [heq] at hm
      simp at hm
      exact hx0dot hm
  have hlenpre : pre.length ≤ y.length := by
    have := congrArg List.length hy
    simp only [List.length_drop, List.length_append] at this
    omega
  have hlen : (pre ++ (last ++ e)).length ≤ (y ++ e).length + 1 := by
    rw [← hdrop]
    simp only [List.length_drop]
    omega
  have hfuel : ∀ o dd, cleanLoop (startsWithSep y) ((y ++ e).length + 1) pre o dd
      = cleanLoop (startsWithSep y) (y.length + 1) pre o dd := by
    intro o dd
    apply cleanLoop_fuel
    · simp only [List.length_append]; omega
    · omega
  unfold cleanChars
  simp only [hroot, hdrop]
  rw [cleanLoop_append (startsWithSep y) _ pre (last ++ e) _ _ hcl hreal hlen]
  simp only [hfuel]
  rw [if_neg]
  · simp only [List.append_assoc]
  · simp [hene]

/-! ### The naming step is injective on well-formed identifiers -/

theorem split_at_underscore :
    ∀ (p1 p2 r1 r2 : List Char), '_' ∉ p1 → '_' ∉ p2 →
      p1 ++ '_' :: r1 = p2 ++ '_' :: r2 → p1 = p2 ∧ r1 = r2 := by
  intro p1
  induction p1 with
  | nil =>
    intro p2 r1 r2 _ h2 h
    cases p2 with
    | nil => simpa using h
    | cons d p2 =>
      simp only [List.nil_append, List.cons_append, List.cons.injEq] at h
      exact absurd (by rw [← h.1]; simp) h2
  | cons c p1 ih =>
    intro p2 r1 r2 h1 h2 h
    cases p2 with
    | nil =>
      simp only [List.nil_append, List.cons_append, List.cons.injEq] at h
      exact absurd (by rw [h.1]; simp) h1
    | cons d p2 =>
      simp only [List.cons_append, List.cons.injEq] at h
      obtain ⟨i1, i2⟩ := ih p2 r1 r2 (fun hm => h1 (List.mem_cons_of_mem _ hm))
        (fun hm => h2 (List.mem_cons_of_mem _ hm)) h.2
      exact ⟨by rw [h.1, i1], i2⟩

theorem outputName_data (a : String) (t : BuildTarget) :
    (outputName a t).data
      = a.data ++ '_' :: (t.GOOS.data ++ '_' ::
          (t.GOARCH.data ++ (if t.GOOS = "windows" then ".exe" else "").data)) := by
  simp [outputName, String.data_append]

theorem outputName_injective (a : String) (t1 t2 : BuildTarget) (hu1 : '_' ∉ t1.GOOS.data)
    (hu2 : '_' ∉ t2.GOOS.data) (h : outputName a t1 = outputName a t2) :
    t1.GOOS = t2.GOOS ∧ t1.GOARCH = t2.GOARCH := by
  have hd := congrArg String.data h
  rw [outputName_data, outputName_data] at hd
  have hd1 := List.append_cancel_left hd
  simp only [List.cons.injEq, true_and] at hd1
  obtain ⟨hp, hr⟩ := split_at_underscore _ _ _ _ hu1 hu2 hd1
  have hgoos : t1.GOOS = t2.GOOS := String.ext hp
  rw [hgoos] at hr
  exact ⟨hgoos, String.ext (List.append_cancel_right hr)⟩

theorem outputPath_data (dir a : String) (t : BuildTarget) :
    (outputPath dir a t).data
      = cleanChars (((if dir.data = [] then [] else dir.data ++ ['/']) ++ a.data)
          ++ '_' :: (t.GOOS.data ++ '_' ::
            (t.GOARCH.data ++ (if t.GOOS = "windows" then ".exe" else "").data))) := by
  have hn := outputName_data a t
  have hne : (outputName a t).data ≠ [] := by rw [hn]; simp
  by_cases hdir : dir.data = []
  · simp only [outputPath, filepathJoin, List.dropWhile_cons, hdir, List.isEmpty_nil, if_true,
      List.dropWhile_nil]
    have h1 : (outputName a t).data.isEmpty = false := by
      cases hx : (outputName a t).data with
      | nil => exact absurd hx hne
      | cons c l => rfl
    simp only [h1, Bool.false_eq_true, if_false, joinSep, Clean, hne]
    simp [hn]
  · have h1 : dir.data.isEmpty = false := by
      cases hx : dir.data with
      | nil => exact absurd hx hdir
      | cons c l => rfl
    simp only [outputPath, filepathJoin, List.dropWhile_cons, h1, Bool.false_eq_true, if_false,
      joinSep, Clean]
    have h2 : dir.data ++ '/' :: (outputName a t).data ≠ [] := by simp
    simp only [h2, if_false, hdir]
    simp [hn]

/-- C5 as stated fails. Two targets with different (platform, architecture) pairs get
the same output file name, hence the same path, when an underscore moves between the two
identifiers; and two targets with different names get the same path when an identifier
holds a path that `filepath.Join` cleans away. -/
theorem distinct_paths_fails :
    (("a_b", "c") : String × String) ≠ ("a", "b_c")
      ∧ outputName "app" { GOOS := "a_b", GOARCH := "c", Name := "A" }
          = outputName "app" { GOOS := "a", GOARCH := "b_c", Name := "B" }
      ∧ outputPath "bin" "app" { GOOS := "a_b", GOARCH := "c", Name := "A" }
          = outputPath "bin" "app" { GOOS := "a", GOARCH := "b_c", Name := "B" }
      ∧ (("linux", "x/..") : String × String) ≠ ("linux", "y/..")
      ∧ outputName "app" { GOOS := "linux", GOARCH := "x/..", Name := "A" }
          ≠ outputName "app" { GOOS := "linux", GOARCH := "y/..", Name := "B" }
      ∧ outputPath "bin" "app" { GOOS := "linux", GOARCH := "x/..", Name := "A" }
          = outputPath "bin" "app" { GOOS := "linux", GOARCH := "y/..", Name := "B" } := by
  decide

/-- C5, amended. For every app name and output directory, two targets whose (platform,
architecture) pairs differ and whose platform identifiers contain no underscore are given
different output file names; and when moreover no platform or architecture identifier
contains a path separator, they are given different output paths. -/
theorem distinct_targets_distinct_paths (appName outputDir : String) (t1 t2 : BuildTarget)
    (hdiff : (t1.GOOS, t1.GOARCH) ≠ (t2.GOOS, t2.GOARCH))
    (hu1 : '_' ∉ t1.GOOS.data) (hu2 : '_' ∉ t2.GOOS.data) :
    outputName appName t1 ≠ outputName appName t2
      ∧ ((∀ c ∈ t1.GOOS.data ++ t1.GOARCH.data ++ t2.GOOS.data ++ t2.GOARCH.data, c ≠ '/') →
          outputPath outputDir appName t1 ≠ outputPath outputDir appName t2) := by
  have hname : outputName appName t1 ≠ outputName appName t2 := by
    intro h
    obtain ⟨h1, h2⟩ := outputName_injective appName t1 t2 hu1 hu2 h
    exact hdiff (by rw [h1, h2])
  refine ⟨hname, ?_⟩
  intro hsep hpath
  have hd := congrArg String.data hpath
  rw [outputPath_data, outputPath_data] at hd
  obtain ⟨H, hH⟩ := cleanChars_append
    ((if outputDir.data = [] then [] else outputDir.data ++ ['/']) ++ appName.data)
  have good : ∀ t : BuildTarget, (∀ c ∈ t.GOOS.data ++ t.GOARCH.data, c ≠ '/') →
      (∀ x ∈ '_' :: (t.GOOS.data ++ '_' ::
          (t.GOARCH.data ++ (if t.GOOS = "windows" then ".exe" else "").data)),
        isPathSeparator x = false) := by
    intro t ht x hx
    have hsuf : ∀ y ∈ (if t.GOOS = "windows" then ".exe" else "").data, y ≠ '/' := by
      intro y hy
      split at hy
      · have : y ∈ ['.', 'e', 'x', 'e'] := hy
        simp at this
        rcases this with rfl | rfl | rfl | rfl <;> decide
      · have : y ∈ ([] : List Char) := hy
        simp at this
    have hx2 : x ≠ '/' := by
      simp only [List.mem_cons, List.mem_append] at hx
      rcases hx with rfl | hx | rfl | hx | hx
      · decide
      · exact ht x (List.mem_append.mpr (Or.inl hx))
      · decide
      · exact ht x (List.mem_append.mpr (Or.inr hx))
      · exact hsuf x hx
    simpa [isPathSeparator] using hx2
  have g1 := good t1 (fun c hc => hsep c (by
    simp only [List.mem_append] at hc ⊢
    tauto))
  have g2 := good t2 (fun c hc => hsep c (by
    simp only [List.mem_append] at hc ⊢
    tauto))
  rw [hH _ g1 ⟨'_', by simp, by decide⟩, hH _ g2 ⟨'_', by simp, by decide⟩] at hd
  have he := List.append_cancel_left hd
  apply hname
  apply String.ext
  rw [outputName_data, outputName_data, he]

/-- C5, amended, at Linux x64 and Windows x64 with the default names. -/
theorem distinct_targets_distinct_paths_witness :
    (("linux", "amd64") : String × String) ≠ ("windows", "amd64")
      ∧ '_' ∉ ("linux" : String).data
      ∧ '_' ∉ ("windows" : String).data
      ∧ outputName "app" { GOOS := "linux", GOARCH := "amd64", Name := "Linux x64" }
          ≠ outputName "app" { GOOS := "windows", GOARCH := "amd64", Name := "Windows x64" }
      ∧ outputPath "bin" "app" { GOOS := "linux", GOARCH := "amd64", Name := "Linux x64" }
          ≠ outputPath "bin" "app"
              { GOOS := "windows", GOARCH := "amd64", Name := "Windows x64" } :=
  ⟨by decide, by decide, by decide,
    (distinct_targets_distinct_paths "app" "bin"
      { GOOS := "linux", GOARCH := "amd64", Name := "Linux x64" }
      { GOOS := "windows", GOARCH := "amd64", Name := "Windows x64" }
      (by decide) (by decide) (by decide)).1,
    (distinct_targets_distinct_paths "app" "bin"
      { GOOS := "linux", GOARCH := "amd64", Name := "Linux x64" }
      { GOOS := "windows", GOARCH := "amd64", Name := "Windows x64" }
      (by decide) (by decide) (by decide)).2 (by decide)⟩

end GoBuilder
